import Mathlib

/-!
Shallow embedding of `pqdict.py` (class `PQDict`): an indexed priority queue
mapping dictionary keys (`dkey : K`) to priority keys (`pkey : P`), backed by a
binary heap (`heap : List (Entry K P)`) and a position index
(`nodefinder`, modelled as an association list `List (K × Nat)`, which is how a
Python `dict` behaves under the no-duplicate-keys invariant the class maintains).

Python machine integers and list indices are modelled as `Nat`; `heap[i]` is
modelled by `hget` (`List.getD` with a default that is never reached from the
states the theorems quantify over); code that raises `KeyError`/`IndexError` is
modelled with `Option`/`Except`.  The `while` loops of `_swim`/`_sink` are
modelled as structurally recursive functions on an explicit iteration bound
(`fuel`); the callers pass a bound that provably exceeds the number of
iterations (`_swim` ascends, strictly decreasing its position which starts at
`pos`; `_sink` descends, strictly increasing its position which stays below
`len(heap)`), so the bound is never exhausted.

The entry classes `MinPQDEntry`/`MaxPQDEntry` differ only in `__lt__`
(`self.pkey < other.pkey` vs `self.pkey > other.pkey`); the instance-level
`create_entry` choice is modelled by the Boolean field `maxpq`.
-/

namespace PQ

/-- Models `PQDictEntry`: a (dkey, pkey) record. -/
structure Entry (K P : Type) where
  dkey : K
  pkey : P
deriving DecidableEq, Repr

instance {K P : Type} [Inhabited K] [Inhabited P] : Inhabited (Entry K P) :=
  ⟨⟨default, default⟩⟩

variable {K P : Type} [DecidableEq K] [Inhabited K] [Inhabited P] [LinearOrder P]

/-- Models `entry < other`: `MinPQDEntry.__lt__` is `self.pkey < other.pkey`,
`MaxPQDEntry.__lt__` is `self.pkey > other.pkey`; `mx` selects the class. -/
def entryLT (mx : Bool) (a b : Entry K P) : Bool :=
  if mx then decide (b.pkey < a.pkey) else decide (a.pkey < b.pkey)

/-- Association-list model of the Python `dict` used for `nodefinder`. -/
abbrev Finder (K : Type) := List (K × Nat)

/-- Models `d[k]` lookup (as an `Option`): first binding of `k`. -/
def dictGet (d : Finder K) (k : K) : Option Nat :=
  match d with
  | [] => none
  | (k', v) :: rest => if k' = k then some v else dictGet rest k

/-- Models `d[k] = v`: overwrite the binding of `k` in place, else append. -/
def dictSet (d : Finder K) (k : K) (v : Nat) : Finder K :=
  match d with
  | [] => [(k, v)]
  | (k', v') :: rest => if k' = k then (k', v) :: rest else (k', v') :: dictSet rest k v

/-- Models `d.pop(k)` (the removal effect): drop the first binding of `k`. -/
def dictPop (d : Finder K) (k : K) : Finder K :=
  match d with
  | [] => []
  | (k', v') :: rest => if k' = k then rest else (k', v') :: dictPop rest k

/-- Models `heap[i]`; the default is never reached from in-range accesses. -/
def hget (h : List (Entry K P)) (i : Nat) : Entry K P :=
  h.getD i default

/-- Models the state of a `PQDict` instance: `maxpq` is the `create_entry`
choice (`false` = `MinPQDEntry`, the class default; `true` = `MaxPQDEntry`). -/
structure PQDict (K P : Type) where
  maxpq : Bool
  heap : List (Entry K P)
  nodefinder : Finder K
deriving Repr

/-- Parent position in the implicit binary tree: Python `(pos - 1) >> 1`.
For `pos = 0` Python yields `-1` and truncated `Nat` subtraction yields `0`;
both fail every `parent_pos > 0` guard, and `_swim` never reads the parent of
position `0`, so the two agree on all code paths. -/
def parentIdx (pos : Nat) : Nat := (pos - 1) / 2

/-- Loop of `PQDict._swim(pos, top)`, after `entry = heap[pos]` was peeled:
while `pos > top`, if `entry < heap[parent_pos]` move the parent down into
`pos` (recording it in the finder) and ascend, else stop; on exit place
`entry` at `pos` and record it.  `fuel` bounds the iterations; since `pos`
strictly decreases, any `fuel > pos` is never exhausted. -/
def swimLoop (mx : Bool) (entry : Entry K P) (top : Nat) :
    List (Entry K P) → Finder K → Nat → Nat → List (Entry K P) × Finder K
  | heap, finder, pos, 0 => (heap.set pos entry, dictSet finder entry.dkey pos)
  | heap, finder, pos, fuel+1 =>
    if top < pos then
      let parent_pos := parentIdx pos
      let parent_entry := hget heap parent_pos
      if entryLT mx entry parent_entry then
        swimLoop mx entry top (heap.set pos parent_entry)
          (dictSet finder parent_entry.dkey pos) parent_pos fuel
      else
        (heap.set pos entry, dictSet finder entry.dkey pos)
    else
      (heap.set pos entry, dictSet finder entry.dkey pos)

/-- Models `PQDict._swim(pos, top)`. -/
def swim (s : PQDict K P) (pos top : Nat) : PQDict K P :=
  let entry := hget s.heap pos
  let hf := swimLoop s.maxpq entry top s.heap s.nodefinder pos (pos + 1)
  { s with heap := hf.1, nodefinder := hf.2 }

/-- Child selection inside `_sink`'s loop: start from the left child
`child_pos`; switch to `right_pos = child_pos + 1` when it is in range and
`not heap[child_pos] < heap[right_pos]`. -/
def pickChild (mx : Bool) (heap : List (Entry K P)) (child_pos : Nat) : Nat :=
  let right_pos := child_pos + 1
  if right_pos < heap.length && !(entryLT mx (hget heap child_pos) (hget heap right_pos)) then
    right_pos
  else
    child_pos

/-- Loop of `PQDict._sink(top)`, after `entry = heap[top]` was peeled: walk a
hole downward, pulling the selected child up into the hole (recording it in the
finder), until a leaf is reached; returns the heap, finder and leaf position.
`fuel` bounds the iterations; the position strictly increases and stays below
`heap.length` (which `List.set` preserves), so `fuel = heap.length` is never
exhausted. -/
def sinkLoop (mx : Bool) :
    List (Entry K P) → Finder K → Nat → Nat → List (Entry K P) × Finder K × Nat
  | heap, finder, pos, 0 => (heap, finder, pos)
  | heap, finder, pos, fuel+1 =>
    let child_pos := 2 * pos + 1
    if child_pos < heap.length then
      let child_pos := pickChild mx heap child_pos
      let child_entry := hget heap child_pos
      sinkLoop mx (heap.set pos child_entry) (dictSet finder child_entry.dkey pos) child_pos fuel
    else
      (heap, finder, pos)

/-- Models `PQDict._sink(top)`: walk the hole to a leaf, place the peeled entry
there, record it, then `_swim(leaf_pos, top)`. -/
def sink (s : PQDict K P) (top : Nat) : PQDict K P :=
  let entry := hget s.heap top
  let hfp := sinkLoop s.maxpq s.heap s.nodefinder top s.heap.length
  let heap := hfp.1.set hfp.2.2 entry
  let finder := dictSet hfp.2.1 entry.dkey hfp.2.2
  swim { s with heap := heap, nodefinder := finder } hfp.2.2 top

/-- Models the repair block duplicated verbatim in `__setitem__` (update
branch), `__delitem__` and `pop` (source lines 246-256, 278-288, 339-349):
if `parent_pos > 0 and heap[pos] < heap[parent_pos]` swim from `pos`,
elif the selected child ranks higher than `heap[pos]` sink from `pos`. -/
def repair (s : PQDict K P) (pos : Nat) : PQDict K P :=
  let heap := s.heap
  let parent_pos := parentIdx pos
  let child_pos := 2 * pos + 1
  if parent_pos > 0 && entryLT s.maxpq (hget heap pos) (hget heap parent_pos) then
    swim s pos 0
  else if child_pos < heap.length then
    let child_pos := pickChild s.maxpq heap child_pos
    if entryLT s.maxpq (hget heap child_pos) (hget heap pos) then
      sink s pos
    else
      s
  else
    s

/-- Models `PQDict.__setitem__(dkey, pkey)`: insert branch appends a fresh
entry and swims it; update branch overwrites `heap[pos].pkey` in place and
runs the repair block. -/
def setitem (s : PQDict K P) (dkey : K) (pkey : P) : PQDict K P :=
  match dictGet s.nodefinder dkey with
  | none =>
      let n := s.heap.length
      let s' : PQDict K P :=
        { s with heap := s.heap ++ [⟨dkey, pkey⟩], nodefinder := dictSet s.nodefinder dkey n }
      swim s' n 0
  | some pos =>
      let heap := s.heap.set pos { hget s.heap pos with pkey := pkey }
      repair { s with heap := heap } pos

/-- Models `PQDict.__delitem__(dkey)`: `none` models the `KeyError` raised by
`finder.pop` before any mutation.  `entry is last` holds exactly when `pos` is
the last index (distinct positions hold distinct entry objects). -/
def delitem (s : PQDict K P) (dkey : K) : Option (PQDict K P) :=
  match dictGet s.nodefinder dkey with
  | none => none
  | some pos =>
      let finder := dictPop s.nodefinder dkey
      let last := hget s.heap (s.heap.length - 1)
      let heap := s.heap.dropLast
      if pos = s.heap.length - 1 then
        some { s with heap := heap, nodefinder := finder }
      else
        some (repair { s with heap := heap.set pos last,
                              nodefinder := dictSet finder last.dkey pos } pos)

/-- Models `PQDict.pop(dkey, default)`: `default = none` models the
no-default call, where an absent key raises `KeyError` (`.error ()`). -/
def pop (s : PQDict K P) (dkey : K) (default : Option P) :
    Except Unit (P × PQDict K P) :=
  match dictGet s.nodefinder dkey with
  | none =>
      match default with
      | none => .error ()
      | some d => .ok (d, s)
  | some pos =>
      let finder := dictPop s.nodefinder dkey
      let delentry := hget s.heap pos
      let last := hget s.heap (s.heap.length - 1)
      let heap := s.heap.dropLast
      if pos = s.heap.length - 1 then
        .ok (delentry.pkey, { s with heap := heap, nodefinder := finder })
      else
        .ok (delentry.pkey,
          repair { s with heap := heap.set pos last,
                          nodefinder := dictSet finder last.dkey pos } pos)

/-- Models `PQDict.popitem()`: `none` models the `KeyError` on an empty heap;
otherwise pop the last entry, and if the heap is still nonempty move it to
position 0 (displacing the returned top) and sink it. -/
def popitem (s : PQDict K P) : Option ((K × P) × PQDict K P) :=
  match s.heap.getLast? with
  | none => none
  | some last =>
      let heap := s.heap.dropLast
      if heap.isEmpty then
        some ((last.dkey, last.pkey),
          { s with heap := heap, nodefinder := dictPop s.nodefinder last.dkey })
      else
        let entry := hget heap 0
        let s' := sink { s with heap := heap.set 0 last,
                                nodefinder := dictSet s.nodefinder last.dkey 0 } 0
        some ((entry.dkey, entry.pkey),
          { s' with nodefinder := dictPop s'.nodefinder entry.dkey })

/-- Models `PQDict.additem(dkey, pkey)`: `none` models the `KeyError` on a
present key. -/
def additem (s : PQDict K P) (dkey : K) (pkey : P) : Option (PQDict K P) :=
  if (dictGet s.nodefinder dkey).isSome then none else some (setitem s dkey pkey)

/-- Models `PQDict.updateitem(dkey, new_pkey)`: `none` models the `KeyError`
on an absent key. -/
def updateitem (s : PQDict K P) (dkey : K) (pkey : P) : Option (PQDict K P) :=
  if (dictGet s.nodefinder dkey).isSome then some (setitem s dkey pkey) else none

/-- Models `PQDict.peek()`: `none` models the `KeyError` on an empty heap. -/
def peek (s : PQDict K P) : Option (K × P) :=
  match s.heap with
  | [] => none
  | e :: _ => some (e.dkey, e.pkey)

/-- Models `PQDict.__getitem__(dkey)` (`getPriority`):
`heap[nodefinder[dkey]].pkey`, `none` modelling the `KeyError`. -/
def getitem (s : PQDict K P) (dkey : K) : Option P :=
  match dictGet s.nodefinder dkey with
  | none => none
  | some pos => some (hget s.heap pos).pkey

/-- Models `PQDict.__len__()`: `len(self.nodefinder)`. -/
def size (s : PQDict K P) : Nat := s.nodefinder.length

/-- Models `PQDict.__contains__(dkey)`. -/
def contains (s : PQDict K P) (dkey : K) : Bool :=
  (dictGet s.nodefinder dkey).isSome

/-- Models `PQDict._heapify()`: `for pos in reversed(range(n // 2)): sink(pos)`. -/
def heapify (s : PQDict K P) : PQDict K P :=
  (List.range (s.heap.length / 2)).reverse.foldl (fun st pos => sink st pos) s

/-- A fresh instance with the given entry class (`maxpq`). -/
def empty (mx : Bool) : PQDict K P := ⟨mx, [], []⟩

/-- Models `PQDict.__init__` on a sequence of `(dkey, pkey)` pairs: append an
entry per pair (recording `nodefinder[dkey] = pos`, where the running `pos`
counter always equals the current heap length), then `_heapify()`. -/
def fromPairs (mx : Bool) (pairs : List (K × P)) : PQDict K P :=
  heapify (pairs.foldl
    (fun s kp =>
      { s with heap := s.heap ++ [⟨kp.1, kp.2⟩],
               nodefinder := dictSet s.nodefinder kp.1 s.heap.length })
    (empty mx))


/-! ### Derived notions stated over the embedding (orders, invariants, traces) -/

/-- The Python `dict` never holds a key twice; this is the corresponding
well-formedness of the association-list model. -/
def keysNodup (d : Finder K) : Prop := (d.map Prod.fst).Nodup

/-- Fueled test for membership of `i` in the subtree rooted at `top` of the
implicit binary tree (walk `i` up through parents until reaching `≤ top`). -/
def isDescF : Nat → Nat → Nat → Bool
  | 0, top, i => i == top
  | fuel+1, top, i => if i ≤ top then i == top else isDescF fuel top (parentIdx i)

/-- `i` lies in the subtree rooted at `top`; `fuel = i` always suffices since
the walk strictly decreases `i`. -/
def isDesc (top i : Nat) : Bool := isDescF i top i

/-- `a` ranks at least as high as `b` (is not below it): `not b < a`. -/
def rankLE (mx : Bool) (a b : Entry K P) : Prop := entryLT mx b a = false

/-- Priority-value comparison induced by the ordering strategy:
non-decreasing for a min-queue, non-increasing for a max-queue. -/
def priOrd (mx : Bool) (p q : P) : Prop := if mx then q ≤ p else p ≤ q

/-- Invariant I3: every non-root entry ranks no higher than its parent. -/
def HeapOrd (mx : Bool) (h : List (Entry K P)) : Prop :=
  ∀ i, i < h.length → 0 < i → rankLE mx (hget h (parentIdx i)) (hget h i)

/-- Heap order restricted to the subtree rooted at `top` (all parent/child
pairs whose child lies strictly inside the subtree). -/
def SubHeapOrd (mx : Bool) (h : List (Entry K P)) (top : Nat) : Prop :=
  ∀ i, i < h.length → 0 < i → isDesc top i = true → i ≠ top →
    rankLE mx (hget h (parentIdx i)) (hget h i)

/-- Heap order on the strict descendants of `top`: all in-subtree pairs whose
parent is not `top` itself. -/
def StrictDescOrd (mx : Bool) (h : List (Entry K P)) (top : Nat) : Prop :=
  ∀ i, i < h.length → 0 < i → isDesc top i = true → i ≠ top → parentIdx i ≠ top →
    rankLE mx (hget h (parentIdx i)) (hget h i)

/-- Repeatedly `popitem`; `fuel = heap.length` pops everything. -/
def popAllAux : Nat → PQDict K P → List (K × P)
  | 0, _ => []
  | fuel+1, s =>
    match popitem s with
    | none => []
    | some (kp, s') => kp :: popAllAux fuel s'

/-- The full pop sequence of a queue. -/
def popAll (s : PQDict K P) : List (K × P) := popAllAux s.heap.length s

/-- Insert a list of pairs one by one via `__setitem__` into a fresh queue. -/
def insertAll (mx : Bool) (pairs : List (K × P)) : PQDict K P :=
  pairs.foldl (fun s kp => setitem s kp.1 kp.2) (empty mx)

/-- Invariants I1/I2: `nodefinder` holds exactly one binding per heap entry,
mapping its dkey to its position, and every binding points back at a heap
entry carrying that dkey. -/
def Inv (s : PQDict K P) : Prop :=
  (∀ q, q < s.heap.length → dictGet s.nodefinder (hget s.heap q).dkey = some q) ∧
  (∀ kv ∈ s.nodefinder, kv.2 < s.heap.length ∧ (hget s.heap kv.2).dkey = kv.1) ∧
  keysNodup s.nodefinder

/-- The entry currently associated to a key (its observable binding). -/
def assocOf (s : PQDict K P) (k : K) : Option (Entry K P) :=
  (dictGet s.nodefinder k).map (hget s.heap)

/-- No two heap positions carry the same dkey (invariant I1). -/
def NodupIdx (h : List (Entry K P)) : Prop :=
  ∀ i j, i < h.length → j < h.length → i ≠ j → (hget h i).dkey ≠ (hget h j).dkey

/-- One mutating call of the public API. -/
inductive Op (K P : Type) where
  | set (dkey : K) (pkey : P)
  | add (dkey : K) (pkey : P)
  | upd (dkey : K) (pkey : P)
  | del (dkey : K)
  | poptop
  | popkey (dkey : K) (default : Option P)

/-- Run one call; a call that raises leaves the state unchanged (every raise
in the source happens before any mutation). -/
def runOp (s : PQDict K P) : Op K P → PQDict K P
  | .set k p => setitem s k p
  | .add k p => (additem s k p).getD s
  | .upd k p => (updateitem s k p).getD s
  | .del k => (delitem s k).getD s
  | .poptop =>
      match popitem s with
      | none => s
      | some (_, s') => s'
  | .popkey k d =>
      match pop s k d with
      | .error _ => s
      | .ok (_, s') => s'

/-- Ghost record of the last priority supplied by a successful
setPriority/addItem/updateItem per key; removal calls do not touch it. -/
def ghostOp (s : PQDict K P) (g : K → Option P) : Op K P → (K → Option P)
  | .set k p => fun k' => if k' = k then some p else g k'
  | .add k p =>
      if (dictGet s.nodefinder k).isSome then g
      else fun k' => if k' = k then some p else g k'
  | .upd k p =>
      if (dictGet s.nodefinder k).isSome then
        fun k' => if k' = k then some p else g k'
      else g
  | .del _ => g
  | .poptop => g
  | .popkey _ _ => g

/-- The queue after a call sequence from a fresh instance, paired with the
ghost map. -/
def runTrace (mx : Bool) (ops : List (Op K P)) : PQDict K P × (K → Option P) :=
  ops.foldl (fun sg op => (runOp sg.1 op, ghostOp sg.1 sg.2 op))
    (empty mx, fun _ => none)

/-- The index invariant holds and every present key's entry carries the
ghost-recorded priority. -/
def Tracks (s : PQDict K P) (g : K → Option P) : Prop :=
  Inv s ∧ ∀ k, (dictGet s.nodefinder k).isSome →
    ∃ p', g k = some p' ∧ assocOf s k = some ⟨k, p'⟩

/-! ### Decidability of the invariants on concrete states -/

instance (d : Finder K) : Decidable (keysNodup d) :=
  inferInstanceAs (Decidable (d.map Prod.fst).Nodup)

instance (mx : Bool) (a b : Entry K P) : Decidable (rankLE mx a b) :=
  inferInstanceAs (Decidable (entryLT mx b a = false))

instance (s : PQDict K P) : Decidable (Inv s) :=
  inferInstanceAs (Decidable
    ((∀ q, q < s.heap.length → dictGet s.nodefinder (hget s.heap q).dkey = some q) ∧
      (∀ kv ∈ s.nodefinder, kv.2 < s.heap.length ∧ (hget s.heap kv.2).dkey = kv.1) ∧
      keysNodup s.nodefinder))

instance (mx : Bool) (h : List (Entry K P)) (top : Nat) :
    Decidable (StrictDescOrd mx h top) :=
  inferInstanceAs (Decidable
    (∀ i, i < h.length → 0 < i → isDesc top i = true → i ≠ top →
      parentIdx i ≠ top → rankLE mx (hget h (parentIdx i)) (hget h i)))

end PQ

namespace PQ

set_option linter.unusedSectionVars false
set_option maxHeartbeats 1600000

variable {K P : Type} [DecidableEq K] [Inhabited K] [Inhabited P] [LinearOrder P]

theorem isSome_dictGet_iff_mem (d : Finder K) (k : K) :
    (dictGet d k).isSome ↔ k ∈ d.map Prod.fst := by
  induction d with
  | nil => simp [dictGet]
  | cons kv rest ih =>
      by_cases hk : kv.1 = k
      · simp [dictGet, hk]
      · simp only [dictGet, if_neg hk, List.map_cons, List.mem_cons]
        rw [ih]
        constructor
        · exact Or.inr
        · rintro (he | hm)
          · exact absurd he.symm hk
          · exact hm

theorem dictGet_eq_none_of_not_mem {d : Finder K} {k : K}
    (h : k ∉ d.map Prod.fst) : dictGet d k = none := by
  cases h' : dictGet d k with
  | none => rfl
  | some v => exact absurd ((isSome_dictGet_iff_mem d k).1 (by simp [h'])) h

theorem dictGet_dictSet_self (d : Finder K) (k : K) (v : Nat) :
    dictGet (dictSet d k v) k = some v := by
  induction d with
  | nil => simp [dictGet, dictSet]
  | cons kv rest ih =>
      by_cases hk : kv.1 = k <;> simp [dictGet, dictSet, hk, ih]

theorem dictGet_dictSet_ne (d : Finder K) {k k' : K} (v : Nat) (h : k ≠ k') :
    dictGet (dictSet d k v) k' = dictGet d k' := by
  induction d with
  | nil => simp [dictGet, dictSet, h]
  | cons kv rest ih =>
      by_cases hk : kv.1 = k
      · subst hk; simp [dictGet, dictSet, h]
      · simp [dictGet, dictSet, hk, ih]

theorem dictGet_dictPop_ne (d : Finder K) {k k' : K} (h : k ≠ k') :
    dictGet (dictPop d k) k' = dictGet d k' := by
  induction d with
  | nil => simp [dictPop]
  | cons kv rest ih =>
      by_cases hk : kv.1 = k
      · subst hk; simp [dictGet, dictPop, h]
      · simp [dictGet, dictPop, hk, ih]

theorem keysNodup_cons {kv : K × Nat} {rest : Finder K} (h : keysNodup (kv :: rest)) :
    kv.1 ∉ rest.map Prod.fst ∧ keysNodup rest := by
  simpa [keysNodup] using h

theorem dictGet_dictPop_self (d : Finder K) (k : K) (hnd : keysNodup d) :
    dictGet (dictPop d k) k = none := by
  induction d with
  | nil => simp [dictPop, dictGet]
  | cons kv rest ih =>
      obtain ⟨hni, hrest⟩ := keysNodup_cons hnd
      by_cases hk : kv.1 = k
      · subst hk
        simpa [dictPop] using dictGet_eq_none_of_not_mem hni
      · simp [dictPop, dictGet, hk, ih hrest]

theorem keys_dictSet (d : Finder K) (k : K) (v : Nat) :
    (dictSet d k v).map Prod.fst =
      if (dictGet d k).isSome then d.map Prod.fst else d.map Prod.fst ++ [k] := by
  induction d with
  | nil => simp [dictSet, dictGet]
  | cons kv rest ih =>
      by_cases hk : kv.1 = k
      · simp [dictSet, dictGet, hk]
      · by_cases hs : (dictGet rest k).isSome <;>
          simp [dictSet, dictGet, hk, ih, hs]

theorem keysNodup_dictSet (d : Finder K) (k : K) (v : Nat) (hnd : keysNodup d) :
    keysNodup (dictSet d k v) := by
  unfold keysNodup
  rw [keys_dictSet]
  by_cases hs : (dictGet d k).isSome
  · simpa [hs] using hnd
  · have hk : k ∉ d.map Prod.fst := by
      rw [← isSome_dictGet_iff_mem]; simpa using hs
    simp only [hs, if_false]
    refine List.Nodup.append hnd (List.nodup_singleton k) ?_
    intro a ha hb
    simp only [List.mem_singleton] at hb
    subst hb
    exact hk ha

theorem keys_dictPop_sublist (d : Finder K) (k : K) :
    List.Sublist ((dictPop d k).map Prod.fst) (d.map Prod.fst) := by
  induction d with
  | nil => simp [dictPop]
  | cons kv rest ih =>
      by_cases hk : kv.1 = k
      · simpa [dictPop, hk] using List.sublist_cons_self _ _
      · simpa [dictPop, hk] using ih.cons₂ kv.1

theorem keysNodup_dictPop (d : Finder K) (k : K) (hnd : keysNodup d) :
    keysNodup (dictPop d k) :=
  hnd.sublist (keys_dictPop_sublist d k)

theorem length_dictSet_present (d : Finder K) (k : K) (v : Nat)
    (h : (dictGet d k).isSome) : (dictSet d k v).length = d.length := by
  induction d with
  | nil => simp [dictGet] at h
  | cons kv rest ih =>
      by_cases hk : kv.1 = k
      · simp [dictSet, hk]
      · simp only [dictGet, if_neg hk] at h
        simp [dictSet, hk, ih h]

theorem length_dictSet_absent (d : Finder K) (k : K) (v : Nat)
    (h : dictGet d k = none) : (dictSet d k v).length = d.length + 1 := by
  induction d with
  | nil => simp [dictSet]
  | cons kv rest ih =>
      by_cases hk : kv.1 = k
      · simp [dictGet, hk] at h
      · simp only [dictGet, if_neg hk] at h
        simp [dictSet, hk, ih h]

theorem length_dictPop_present (d : Finder K) (k : K)
    (h : (dictGet d k).isSome) : (dictPop d k).length + 1 = d.length := by
  induction d with
  | nil => simp [dictGet] at h
  | cons kv rest ih =>
      by_cases hk : kv.1 = k
      · simp [dictPop, hk]
      · simp only [dictGet, if_neg hk] at h
        simp [dictPop, hk, ih h]

theorem isSome_dictGet_dictSet (d : Finder K) (k k' : K) (v : Nat) :
    (dictGet (dictSet d k v) k').isSome ↔ k = k' ∨ (dictGet d k').isSome := by
  by_cases hk : k = k'
  · subst hk; simp [dictGet_dictSet_self]
  · simp [dictGet_dictSet_ne d v hk, hk]

theorem dictGet_of_mem_nodup {d : Finder K} {kv : K × Nat}
    (hnd : keysNodup d) (hm : kv ∈ d) : dictGet d kv.1 = some kv.2 := by
  induction d with
  | nil => simp at hm
  | cons kv' rest ih =>
      obtain ⟨hni, hrest⟩ := keysNodup_cons hnd
      rcases List.mem_cons.1 hm with he | hm'
      · subst he; simp [dictGet]
      · have hne : kv'.1 ≠ kv.1 := by
          intro he
          exact hni (by rw [he]; exact List.mem_map_of_mem Prod.fst hm')
        simp [dictGet, hne, ih hrest hm']

theorem mem_of_dictGet {d : Finder K} {k : K} {v : Nat}
    (h : dictGet d k = some v) : (k, v) ∈ d := by
  induction d with
  | nil => simp [dictGet] at h
  | cons kv rest ih =>
      by_cases hk : kv.1 = k
      · simp only [dictGet, if_pos hk] at h
        exact List.mem_cons.2 (Or.inl (by cases kv; simp_all))
      · simp only [dictGet, if_neg hk] at h
        exact List.mem_cons.2 (Or.inr (ih h))

theorem dictPop_dictSet_comm (d : Finder K) {k j : K} (v : Nat) (h : j ≠ k) :
    dictPop (dictSet d j v) k = dictSet (dictPop d k) j v := by
  induction d with
  | nil => simp [dictSet, dictPop, h, Ne.symm h]
  | cons kv rest ih =>
      by_cases hj : kv.1 = j
      · subst hj
        simp [dictSet, dictPop, h]
      · by_cases hk : kv.1 = k
        · subst hk
          simp [dictSet, dictPop, hj]
        · simp [dictSet, dictPop, hj, hk, ih]

/-! ### Heap-array access lemmas -/

theorem hget_set_self {h : List (Entry K P)} {i : Nat} {e : Entry K P}
    (hi : i < h.length) : hget (h.set i e) i = e := by
  simp [hget, List.getD, List.getElem?_set_self, hi]

theorem hget_set_ne {h : List (Entry K P)} {i j : Nat} {e : Entry K P}
    (hij : i ≠ j) : hget (h.set i e) j = hget h j := by
  simp [hget, List.getD, List.getElem?_set_ne, hij]

theorem hget_append_lt (h : List (Entry K P)) (e : Entry K P) {i : Nat}
    (hi : i < h.length) : hget (h ++ [e]) i = hget h i := by
  simp [hget, List.getD, List.getElem?_append_left, hi]

theorem hget_append_self (h : List (Entry K P)) (e : Entry K P) :
    hget (h ++ [e]) h.length = e := by
  simp [hget, List.getD]

theorem hget_dropLast (h : List (Entry K P)) {i : Nat}
    (hi : i < h.length - 1) : hget h.dropLast i = hget h i := by
  have h2 : i < h.length := by omega
  simp only [hget, List.getD, List.getElem?_dropLast]
  simp [hi, List.getElem?_eq_getElem h2]

theorem hget_getLast (h : List (Entry K P)) (hne : h ≠ []) :
    h.getLast hne = hget h (h.length - 1) := by
  have hl : h.length - 1 < h.length := by
    cases h with
    | nil => simp at hne
    | cons a l => simp
  rw [List.getLast_eq_getElem]
  simp [hget, List.getD, List.getElem?_eq_getElem hl]

/-! ### Parent/child index arithmetic and subtree membership -/

theorem parentIdx_lt {i : Nat} (hi : 0 < i) : parentIdx i < i := by
  unfold parentIdx; omega

theorem parentIdx_left (p : Nat) : parentIdx (2 * p + 1) = p := by
  unfold parentIdx; omega

theorem parentIdx_right (p : Nat) : parentIdx (2 * p + 2) = p := by
  unfold parentIdx; omega

theorem child_eq_of_parentIdx {c : Nat} (hc : 0 < c) :
    c = 2 * parentIdx c + 1 ∨ c = 2 * parentIdx c + 2 := by
  unfold parentIdx; omega

theorem lt_of_parentIdx_eq {c p : Nat} (hc : 0 < c) (h : parentIdx c = p) : p < c := by
  subst h; exact parentIdx_lt hc

theorem isDescF_stable (top : Nat) :
    ∀ fuel fuel' i, i ≤ fuel → i ≤ fuel' → isDescF fuel top i = isDescF fuel' top i := by
  intro fuel
  induction fuel with
  | zero =>
      intro fuel' i hi _
      interval_cases i
      cases fuel' with
      | zero => rfl
      | succ f => simp [isDescF]
  | succ f ih =>
      intro fuel' i hi hi'
      cases fuel' with
      | zero =>
          interval_cases i
          simp [isDescF]
      | succ f' =>
          simp only [isDescF]
          by_cases hle : i ≤ top
          · simp [hle]
          · simp only [hle, if_false]
            have hpos : 0 < i := by omega
            have hp := parentIdx_lt hpos
            exact ih f' (parentIdx i) (by omega) (by omega)

theorem isDesc_unfold (top i : Nat) :
    isDesc top i = if i ≤ top then i == top else isDesc top (parentIdx i) := by
  unfold isDesc
  by_cases hle : i ≤ top
  · cases i with
    | zero => simp [isDescF, hle]
    | succ n => simp [isDescF, hle]
  · have hpos : 0 < i := by omega
    have hp := parentIdx_lt hpos
    cases i with
    | zero => omega
    | succ n =>
        simp only [isDescF, hle, if_false, if_neg hle]
        exact isDescF_stable top n (parentIdx (n+1)) (parentIdx (n+1)) (by omega) (le_refl _)

theorem isDesc_self (top : Nat) : isDesc top top = true := by
  rw [isDesc_unfold]; simp

theorem isDesc_zero (i : Nat) : isDesc 0 i = true := by
  induction i using Nat.strong_induction_on with
  | _ i ih =>
      rw [isDesc_unfold]
      by_cases h : i ≤ 0
      · simp [Nat.le_zero.1 h]
      · simp only [h, if_false]
        exact ih (parentIdx i) (parentIdx_lt (by omega))

theorem le_of_isDesc {top i : Nat} (h : isDesc top i = true) : top ≤ i := by
  induction i using Nat.strong_induction_on with
  | _ i ih =>
      rw [isDesc_unfold] at h
      by_cases hle : i ≤ top
      · simp only [hle, if_true, beq_iff_eq] at h
        omega
      · omega

theorem isDesc_parentIdx {top i : Nat} (h : isDesc top i = true) (hne : i ≠ top) :
    isDesc top (parentIdx i) = true := by
  rw [isDesc_unfold] at h
  by_cases hle : i ≤ top
  · simp only [hle, if_true, beq_iff_eq] at h
    exact absurd h hne
  · simpa [hle] using h

theorem isDesc_child {top c : Nat} (hc : 0 < c)
    (h : isDesc top (parentIdx c) = true) : isDesc top c = true := by
  have htop : top ≤ parentIdx c := le_of_isDesc h
  have : ¬ c ≤ top := by
    have := child_eq_of_parentIdx hc
    omega
  rw [isDesc_unfold]
  simp [this, h]

theorem gt_top_of_isDesc {top i : Nat} (h : isDesc top i = true) (hne : i ≠ top) :
    top < i := by
  have := le_of_isDesc h
  omega

theorem rankLE_refl (mx : Bool) (a : Entry K P) : rankLE mx a a := by
  cases mx <;> simp [rankLE, entryLT]

theorem rankLE_of_entryLT {mx : Bool} {a b : Entry K P}
    (h : entryLT mx a b = true) : rankLE mx a b := by
  cases mx <;> simp [rankLE, entryLT] at h ⊢ <;> exact le_of_lt h

theorem rankLE_trans {mx : Bool} {a b c : Entry K P}
    (h1 : rankLE mx a b) (h2 : rankLE mx b c) : rankLE mx a c := by
  cases mx <;> simp [rankLE, entryLT] at h1 h2 ⊢ <;>
    first
    | exact le_trans h1 h2
    | exact le_trans h2 h1

theorem rankLE_or (mx : Bool) (a b : Entry K P) :
    entryLT mx a b = true ∨ rankLE mx b a := by
  cases h : entryLT mx a b
  · right
    simpa [rankLE] using h
  · left; rfl

theorem priOrd_of_rankLE {mx : Bool} {a b : Entry K P}
    (h : rankLE mx a b) : priOrd mx a.pkey b.pkey := by
  cases mx <;> simp [rankLE, entryLT, priOrd] at h ⊢ <;> exact h

theorem heapOrd_iff_subHeapOrd_zero {mx : Bool} {h : List (Entry K P)} :
    HeapOrd mx h ↔ SubHeapOrd mx h 0 := by
  constructor
  · intro ho i hi h0 _ _
    exact ho i hi h0
  · intro ho i hi h0
    exact ho i hi h0 (isDesc_zero i) (by omega)

/-! ### The swim loop restores heap order -/

theorem swimLoop_length (mx : Bool) (e : Entry K P) (top : Nat) :
    ∀ (fuel : Nat) (h : List (Entry K P)) (f : Finder K) (pos : Nat),
      (swimLoop mx e top h f pos fuel).1.length = h.length := by
  intro fuel
  induction fuel with
  | zero => intro h f pos; simp [swimLoop]
  | succ fl ih =>
      intro h f pos
      rw [swimLoop]
      by_cases hlt : top < pos
      · by_cases hcmp : entryLT mx e (hget h (parentIdx pos)) = true
        · simp only [if_pos hlt, if_pos hcmp, ih, List.length_set]
        · simp only [if_pos hlt, if_neg hcmp, List.length_set]
      · simp only [if_neg hlt, List.length_set]

/-- Placing `e` at a hole `pos` yields subtree heap order, provided all pairs
avoiding the hole are ordered, the hole's children are dominated by `e`, and
the hole's parent (when inside the subtree) dominates `e`. -/
theorem set_subHeapOrd {mx : Bool} {h : List (Entry K P)} {top pos : Nat}
    {e : Entry K P}
    (hl : pos < h.length) (htop : top ≤ pos)
    (hB : ∀ i, i < h.length → 0 < i → isDesc top i = true → i ≠ top → i ≠ pos →
      parentIdx i ≠ pos → rankLE mx (hget h (parentIdx i)) (hget h i))
    (hC : ∀ c, c < h.length → 0 < c → parentIdx c = pos → c ≠ pos →
      rankLE mx e (hget h c))
    (hP : pos ≠ top → rankLE mx (hget h (parentIdx pos)) e) :
    SubHeapOrd mx (h.set pos e) top := by
  intro i hi h0 hdi hit
  rw [List.length_set] at hi
  by_cases hip : i = pos
  · subst hip
    have h0i : 0 < i := h0
    have hppi : parentIdx i ≠ i := by have := parentIdx_lt h0i; omega
    rw [hget_set_ne (Ne.symm hppi), hget_set_self hl]
    exact hP hit
  · rw [hget_set_ne (fun he => hip he.symm)]
    by_cases hpi : parentIdx i = pos
    · rw [hpi, hget_set_self hl]
      exact hC i hi h0 hpi hip
    · rw [hget_set_ne (fun he => hpi he.symm)]
      exact hB i hi h0 hdi hit hip hpi

theorem swimLoop_subHeapOrd (mx : Bool) (e : Entry K P) (top : Nat) :
    ∀ (fuel : Nat) (h : List (Entry K P)) (f : Finder K) (pos : Nat),
      pos < fuel → pos < h.length → top ≤ pos → isDesc top pos = true →
      (∀ i, i < h.length → 0 < i → isDesc top i = true → i ≠ top → i ≠ pos →
        parentIdx i ≠ pos → rankLE mx (hget h (parentIdx i)) (hget h i)) →
      (∀ c, c < h.length → 0 < c → parentIdx c = pos → c ≠ pos →
        rankLE mx e (hget h c)) →
      (pos ≠ top → ∀ c, c < h.length → 0 < c → parentIdx c = pos → c ≠ pos →
        rankLE mx (hget h (parentIdx pos)) (hget h c)) →
      SubHeapOrd mx (swimLoop mx e top h f pos fuel).1 top := by
  intro fuel
  induction fuel with
  | zero => intro h f pos hfuel; omega
  | succ fl ih =>
      intro h f pos hfuel hl htop hdesc hB hC1 hC2
      rw [swimLoop]
      by_cases hlt : top < pos
      · simp only [if_pos hlt]
        by_cases hcmp : entryLT mx e (hget h (parentIdx pos)) = true
        · simp only [if_pos hcmp]
          -- move the parent down into the hole and ascend
          have h0 : 0 < pos := by omega
          have hpp := parentIdx_lt h0
          have hdescp : isDesc top (parentIdx pos) = true :=
            isDesc_parentIdx hdesc (by omega)
          have htopp : top ≤ parentIdx pos := le_of_isDesc hdescp
          refine ih (h.set pos (hget h (parentIdx pos)))
            (dictSet f (hget h (parentIdx pos)).dkey pos) (parentIdx pos)
            (by omega) (by rw [List.length_set]; omega) htopp hdescp ?_ ?_ ?_
          · -- pairs avoiding the new hole
            intro i hi h0i hdi hit hipp hpipp
            rw [List.length_set] at hi
            by_cases hpi : parentIdx i = pos
            · -- a child of the old hole: its new parent value is the moved-down entry
              have hipos : i ≠ pos := by
                have := lt_of_parentIdx_eq h0i hpi; omega
              rw [hpi, hget_set_self hl, hget_set_ne (fun he => hipos he.symm)]
              exact hC2 (by omega) i hi h0i hpi hipos
            · have hipos : i ≠ pos := by
                intro he; subst he; exact hpipp rfl
              rw [hget_set_ne (fun he => hpi he.symm),
                hget_set_ne (fun he => hipos he.symm)]
              exact hB i hi h0i hdi hit hipos hpi
          · -- children of the new hole are dominated by `e`
            intro c hc h0c hpc hcp
            rw [List.length_set] at hc
            have hle : rankLE mx e (hget h (parentIdx pos)) := rankLE_of_entryLT hcmp
            by_cases hcpos : c = pos
            · subst hcpos
              rw [hget_set_self hl]
              exact hle
            · rw [hget_set_ne (fun he => hcpos he.symm)]
              have hcd : isDesc top c = true := isDesc_child h0c (by rw [hpc]; exact hdescp)
              have hct : c ≠ top := by
                have := lt_of_parentIdx_eq h0c hpc; omega
              have hbc := hB c hc h0c hcd hct hcpos (by omega)
              rw [hpc] at hbc
              exact rankLE_trans hle hbc
          · -- the new hole's parent dominates the new hole's children
            intro hppt c hc h0c hpc hcp
            rw [List.length_set] at hc
            have h0pp : 0 < parentIdx pos := by
              have := le_of_isDesc hdescp
              have := gt_top_of_isDesc hdescp hppt
              omega
            have hpppne : parentIdx (parentIdx pos) ≠ pos := by
              have := parentIdx_lt h0pp; omega
            have hdom : rankLE mx (hget h (parentIdx (parentIdx pos))) (hget h (parentIdx pos)) :=
              hB (parentIdx pos) (by omega) h0pp hdescp hppt (by omega) hpppne
            rw [hget_set_ne (fun he => hpppne he.symm)]
            by_cases hcpos : c = pos
            · subst hcpos
              rw [hget_set_self hl]
              exact hdom
            · rw [hget_set_ne (fun he => hcpos he.symm)]
              have hcd : isDesc top c = true := isDesc_child h0c (by rw [hpc]; exact hdescp)
              have hct : c ≠ top := by
                have := lt_of_parentIdx_eq h0c hpc
                have := le_of_isDesc hdescp
                omega
              have hbc := hB c hc h0c hcd hct hcpos (by omega)
              rw [hpc] at hbc
              exact rankLE_trans hdom hbc
        · -- the entry does not rank above its parent: place it at the hole
          simp only [hcmp, if_false]
          refine set_subHeapOrd hl htop hB (fun c hc h0c hpc hcp => hC1 c hc h0c hpc hcp) ?_
          intro _
          simpa [rankLE] using hcmp
      · -- `pos = top`: place the entry at the hole
        simp only [if_neg hlt]
        have hpt : pos = top := by omega
        refine set_subHeapOrd hl htop hB (fun c hc h0c hpc hcp => hC1 c hc h0c hpc hcp) ?_
        intro hne
        exact absurd hpt hne

/-! ### The sink loop walks the hole to a leaf, keeping order away from it -/

theorem pickChild_cases (mx : Bool) (h : List (Entry K P)) (cp : Nat) :
    pickChild mx h cp = cp ∨ (pickChild mx h cp = cp + 1 ∧ cp + 1 < h.length) := by
  unfold pickChild
  by_cases hcond : (cp + 1 < h.length && !(entryLT mx (hget h cp) (hget h (cp + 1)))) = true
  · right
    simp only [Bool.and_eq_true, decide_eq_true_eq] at hcond
    exact ⟨by simp [hcond.1, hcond.2], hcond.1⟩
  · left
    simp only [if_neg hcond]

theorem pickChild_best {mx : Bool} {h : List (Entry K P)} {cp : Nat}
    (hcp : cp < h.length) :
    ∀ j, (j = cp ∨ j = cp + 1) → j < h.length →
      rankLE mx (hget h (pickChild mx h cp)) (hget h j) := by
  intro j hj hjl
  unfold pickChild
  by_cases hcond : (cp + 1 < h.length && !(entryLT mx (hget h cp) (hget h (cp + 1)))) = true
  · simp only [Bool.and_eq_true, decide_eq_true_eq, Bool.not_eq_true'] at hcond
    simp only [hcond.1, hcond.2, decide_True, Bool.not_false, Bool.and_self, if_true]
    rcases hj with rfl | rfl
    · exact hcond.2
    · exact rankLE_refl mx _
  · simp only [hcond, if_false]
    rcases hj with rfl | rfl
    · exact rankLE_refl mx _
    · have hlt : entryLT mx (hget h cp) (hget h (cp + 1)) = true := by
        by_contra hne
        apply hcond
        simp only [Bool.and_eq_true, decide_eq_true_eq, Bool.not_eq_true']
        exact ⟨hjl, by simpa using hne⟩
      exact rankLE_of_entryLT hlt

theorem sinkLoop_ord (mx : Bool) (top : Nat) :
    ∀ (fuel : Nat) (h : List (Entry K P)) (f : Finder K) (pos : Nat),
      h.length - pos ≤ fuel → pos < h.length → top ≤ pos → isDesc top pos = true →
      (∀ i, i < h.length → 0 < i → isDesc top i = true → i ≠ top →
        parentIdx i ≠ pos → rankLE mx (hget h (parentIdx i)) (hget h i)) →
      (pos ≠ top → ∀ c, c < h.length → 0 < c → parentIdx c = pos →
        rankLE mx (hget h pos) (hget h c)) →
      pos ≤ (sinkLoop mx h f pos fuel).2.2 ∧
      (sinkLoop mx h f pos fuel).2.2 < h.length ∧
      isDesc top (sinkLoop mx h f pos fuel).2.2 = true ∧
      (sinkLoop mx h f pos fuel).1.length = h.length ∧
      ¬ (2 * (sinkLoop mx h f pos fuel).2.2 + 1 < h.length) ∧
      (∀ i, i < h.length → 0 < i → isDesc top i = true → i ≠ top →
        parentIdx i ≠ (sinkLoop mx h f pos fuel).2.2 →
        rankLE mx (hget (sinkLoop mx h f pos fuel).1 (parentIdx i))
          (hget (sinkLoop mx h f pos fuel).1 i)) := by
  intro fuel
  induction fuel with
  | zero => intro h f pos hfuel hl; omega
  | succ fl ih =>
      intro h f pos hfuel hl htop hdesc hB hD
      rw [sinkLoop]
      by_cases hchild : 2 * pos + 1 < h.length
      · simp only [if_pos hchild]
        set c := pickChild mx h (2 * pos + 1) with hcdef
        have hcprop : c = 2 * pos + 1 ∨ (c = 2 * pos + 2 ∧ 2 * pos + 2 < h.length) := by
          rcases pickChild_cases mx h (2 * pos + 1) with hc | ⟨hc, hcl⟩
          · exact Or.inl hc
          · exact Or.inr ⟨hc, hcl⟩
        have hcl : c < h.length := by rcases hcprop with hc | ⟨hc, hcl⟩ <;> omega
        have hcpos : pos < c := by rcases hcprop with hc | ⟨hc, _⟩ <;> omega
        have hc0 : 0 < c := by omega
        have hpc : parentIdx c = pos := by
          rcases hcprop with hc | ⟨hc, _⟩ <;>
            simp [hc, parentIdx_left, parentIdx_right]
        have hcdesc : isDesc top c = true := isDesc_child hc0 (by rw [hpc]; exact hdesc)
        have hbest : ∀ j, (j = 2 * pos + 1 ∨ j = 2 * pos + 2) → j < h.length →
            rankLE mx (hget h c) (hget h j) := by
          intro j hj hjl
          refine pickChild_best hchild j ?_ hjl
          rcases hj with rfl | rfl
          · exact Or.inl rfl
          · exact Or.inr rfl
        -- establish the invariants for the recursive call on the new hole `c`
        have hlen1 : (h.set pos (hget h c)).length = h.length := List.length_set h pos _
        have hB1 : ∀ i, i < (h.set pos (hget h c)).length → 0 < i →
            isDesc top i = true → i ≠ top → parentIdx i ≠ c →
            rankLE mx (hget (h.set pos (hget h c)) (parentIdx i))
              (hget (h.set pos (hget h c)) i) := by
          intro i hi h0i hdi hit hpic
          rw [hlen1] at hi
          by_cases hpi : parentIdx i = pos
          · have hipos : i ≠ pos := by
              have := lt_of_parentIdx_eq h0i hpi; omega
            rw [hpi, hget_set_self hl, hget_set_ne (fun he => hipos he.symm)]
            by_cases hic : i = c
            · subst hic; exact rankLE_refl mx _
            · have := child_eq_of_parentIdx h0i
              rw [hpi] at this
              refine hbest i ?_ hi
              omega
          · by_cases hipos : i = pos
            · subst hipos
              have h0p : 0 < i := by
                have := gt_top_of_isDesc hdi hit; omega
              have hppne : parentIdx i ≠ i := by have := parentIdx_lt h0p; omega
              rw [hget_set_ne (Ne.symm hppne), hget_set_self hl]
              have h1 : rankLE mx (hget h (parentIdx i)) (hget h i) :=
                hB i hi h0p hdi hit hppne
              have h2 : rankLE mx (hget h i) (hget h c) :=
                hD hit c hcl hc0 hpc
              exact rankLE_trans h1 h2
            · rw [hget_set_ne (fun he => hpi he.symm),
                hget_set_ne (fun he => hipos he.symm)]
              exact hB i hi h0i hdi hit hpi
        have hD1 : c ≠ top → ∀ gc, gc < (h.set pos (hget h c)).length → 0 < gc →
            parentIdx gc = c →
            rankLE mx (hget (h.set pos (hget h c)) c)
              (hget (h.set pos (hget h c)) gc) := by
          intro _ gc hgc h0gc hpgc
          rw [hlen1] at hgc
          have hgcc : c < gc := lt_of_parentIdx_eq h0gc hpgc
          have hgcpos : gc ≠ pos := by omega
          have hcpos' : c ≠ pos := by omega
          rw [hget_set_ne (fun he => hcpos' he.symm),
            hget_set_ne (fun he => hgcpos he.symm)]
          have hgcd : isDesc top gc = true := isDesc_child h0gc (by rw [hpgc]; exact hcdesc)
          have hgct : gc ≠ top := by
            have := le_of_isDesc hcdesc; omega
          have hbgc := hB gc hgc h0gc hgcd hgct (by omega)
          rw [hpgc] at hbgc
          exact hbgc
        have hrec := ih (h.set pos (hget h c)) (dictSet f (hget h c).dkey pos) c
          (by omega) (by omega) (by omega) hcdesc hB1 hD1
        rw [hlen1] at hrec
        obtain ⟨r1, r2, r3, r4, r5, r6⟩ := hrec
        refine ⟨by omega, r2, r3, r4, r5, ?_⟩
        intro i hi h0i hdi hit hpir
        exact r6 i hi h0i hdi hit hpir
      · simp only [if_neg hchild]
        refine ⟨le_refl pos, hl, hdesc, trivial, hchild, ?_⟩
        intro i hi h0i hdi hit hpi
        exact hB i hi h0i hdi hit hpi

/-! ### Value tracking through the loops -/

theorem sinkLoop_heap_length (mx : Bool) :
    ∀ (fuel : Nat) (h : List (Entry K P)) (f : Finder K) (pos : Nat),
      (sinkLoop mx h f pos fuel).1.length = h.length := by
  intro fuel
  induction fuel with
  | zero => intro h f pos; simp [sinkLoop]
  | succ fl ih =>
      intro h f pos
      rw [sinkLoop]
      by_cases hchild : 2 * pos + 1 < h.length
      · simp only [if_pos hchild, ih, List.length_set]
      · simp only [if_neg hchild]

theorem swimLoop_mem (mx : Bool) (e : Entry K P) (top : Nat) :
    ∀ (fuel : Nat) (h : List (Entry K P)) (f : Finder K) (pos : Nat),
      pos < h.length →
      ∀ q, q < h.length →
        hget (swimLoop mx e top h f pos fuel).1 q = e ∨
        ∃ r, r < h.length ∧ hget (swimLoop mx e top h f pos fuel).1 q = hget h r := by
  intro fuel
  induction fuel with
  | zero =>
      intro h f pos hl q hq
      by_cases hqp : q = pos
      · subst hqp
        exact Or.inl (by simp [swimLoop, hget_set_self hl])
      · exact Or.inr ⟨q, hq, by simp [swimLoop, hget_set_ne (fun he => hqp he.symm)]⟩
  | succ fl ih =>
      intro h f pos hl q hq
      rw [swimLoop]
      by_cases hlt : top < pos
      · simp only [if_pos hlt]
        by_cases hcmp : entryLT mx e (hget h (parentIdx pos)) = true
        · simp only [if_pos hcmp]
          have hpl : parentIdx pos < h.length := by
            have := parentIdx_lt (show 0 < pos by omega); omega
          rcases ih (h.set pos (hget h (parentIdx pos)))
              (dictSet f (hget h (parentIdx pos)).dkey pos) (parentIdx pos)
              (by rw [List.length_set]; omega) q (by rw [List.length_set]; omega) with
            hqe | ⟨r, hr, hval⟩
          · exact Or.inl hqe
          · rw [List.length_set] at hr
            by_cases hrp : r = pos
            · subst hrp
              rw [hget_set_self hl] at hval
              exact Or.inr ⟨parentIdx r, hpl, hval⟩
            · rw [hget_set_ne (fun he => hrp he.symm)] at hval
              exact Or.inr ⟨r, hr, hval⟩
        · simp only [if_neg hcmp]
          by_cases hqp : q = pos
          · subst hqp
            exact Or.inl (by simp [hget_set_self hl])
          · exact Or.inr ⟨q, hq, by simp [hget_set_ne (fun he => hqp he.symm)]⟩
      · simp only [if_neg hlt]
        by_cases hqp : q = pos
        · subst hqp
          exact Or.inl (by simp [hget_set_self hl])
        · exact Or.inr ⟨q, hq, by simp [hget_set_ne (fun he => hqp he.symm)]⟩

theorem sinkLoop_mem (mx : Bool) :
    ∀ (fuel : Nat) (h : List (Entry K P)) (f : Finder K) (pos : Nat),
      pos < h.length →
      ∀ q, q < h.length →
        ∃ r, r < h.length ∧ hget (sinkLoop mx h f pos fuel).1 q = hget h r := by
  intro fuel
  induction fuel with
  | zero => intro h f pos hl q hq; exact ⟨q, hq, by simp [sinkLoop]⟩
  | succ fl ih =>
      intro h f pos hl q hq
      rw [sinkLoop]
      by_cases hchild : 2 * pos + 1 < h.length
      · simp only [if_pos hchild]
        set c := pickChild mx h (2 * pos + 1) with hcdef
        have hcl : c < h.length := by
          rcases pickChild_cases mx h (2 * pos + 1) with hc | ⟨hc, hcb⟩ <;> omega
        rcases ih (h.set pos (hget h c)) (dictSet f (hget h c).dkey pos) c
            (by rw [List.length_set]; omega) q (by rw [List.length_set]; omega) with
          ⟨r, hr, hval⟩
        rw [List.length_set] at hr
        by_cases hrp : r = pos
        · subst hrp
          rw [hget_set_self hl] at hval
          exact ⟨c, hcl, hval⟩
        · rw [hget_set_ne (fun he => hrp he.symm)] at hval
          exact ⟨r, hr, hval⟩
      · simp only [if_neg hchild]
        exact ⟨q, hq, rfl⟩

/-- `_sink(top)` restores heap order on the whole subtree rooted at `top`,
provided the strict descendants of `top` were heap-ordered (C8's hypothesis). -/
theorem sink_subHeapOrd {s : PQDict K P} {top : Nat}
    (hl : top < s.heap.length) (hso : StrictDescOrd s.maxpq s.heap top) :
    SubHeapOrd s.maxpq (sink s top).heap top ∧
    (sink s top).heap.length = s.heap.length ∧
    (sink s top).maxpq = s.maxpq := by
  obtain ⟨r1, r2, r3, r4, r5, r6⟩ := sinkLoop_ord s.maxpq top s.heap.length s.heap
    s.nodefinder top (by omega) hl (le_refl top) (isDesc_self top)
    (fun i hi h0i hdi hit hpi => hso i hi h0i hdi hit hpi)
    (fun hne => absurd rfl hne)
  simp only [sink, swim]
  generalize hR : sinkLoop s.maxpq s.heap s.nodefinder top s.heap.length = R
    at r1 r2 r3 r4 r5 r6 ⊢
  obtain ⟨rh, rf, rpos⟩ := R
  simp only at r1 r2 r3 r4 r5 r6 ⊢
  have hset_len : (rh.set rpos (hget s.heap top)).length = s.heap.length := by
    rw [List.length_set, r4]
  have hget_back : hget (rh.set rpos (hget s.heap top)) rpos = hget s.heap top :=
    hget_set_self (by rw [r4]; exact r2)
  rw [hget_back]
  refine ⟨?_, ?_, trivial⟩
  · refine swimLoop_subHeapOrd s.maxpq (hget s.heap top) top (rpos + 1)
      (rh.set rpos (hget s.heap top)) (dictSet rf (hget s.heap top).dkey rpos) rpos
      (by omega) (by rw [hset_len]; exact r2) r1 r3 ?_ ?_ ?_
    · -- pairs away from the leaf hole are ordered
      intro i hi h0i hdi hit hip hpip
      rw [hset_len] at hi
      rw [hget_set_ne (fun he => hip he.symm), hget_set_ne (fun he => hpip he.symm)]
      exact r6 i hi h0i hdi hit hpip
    · -- the leaf has no in-range children
      intro c hc h0c hpc hcp
      rw [hset_len] at hc
      have := child_eq_of_parentIdx h0c
      rw [hpc] at this
      omega
    · intro _ c hc h0c hpc hcp
      rw [hset_len] at hc
      have := child_eq_of_parentIdx h0c
      rw [hpc] at this
      omega
  · rw [swimLoop_length, hset_len]

/-- Positions chosen by the sink loop stay in range (no order hypotheses). -/
theorem sinkLoop_pos_bound (mx : Bool) :
    ∀ (fuel : Nat) (h : List (Entry K P)) (f : Finder K) (pos : Nat),
      pos < h.length →
      pos ≤ (sinkLoop mx h f pos fuel).2.2 ∧ (sinkLoop mx h f pos fuel).2.2 < h.length := by
  intro fuel
  induction fuel with
  | zero => intro h f pos hl; exact ⟨le_refl pos, hl⟩
  | succ fl ih =>
      intro h f pos hl
      rw [sinkLoop]
      by_cases hchild : 2 * pos + 1 < h.length
      · simp only [if_pos hchild]
        have hcl : pickChild mx h (2 * pos + 1) < h.length ∧
            pos < pickChild mx h (2 * pos + 1) := by
          rcases pickChild_cases mx h (2 * pos + 1) with hc | ⟨hc, hcb⟩ <;>
            constructor <;> omega
        have := ih (h.set pos (hget h (pickChild mx h (2 * pos + 1))))
          (dictSet f (hget h (pickChild mx h (2 * pos + 1))).dkey pos)
          (pickChild mx h (2 * pos + 1)) (by rw [List.length_set]; exact hcl.1)
        rw [List.length_set] at this
        exact ⟨by omega, this.2⟩
      · simp only [if_neg hchild]
        exact ⟨le_refl pos, hl⟩

/-- Entries of the heap produced by `_sink` are entries of the input heap. -/
theorem sink_mem {s : PQDict K P} {top : Nat} (hl : top < s.heap.length) :
    ∀ q, q < (sink s top).heap.length →
      ∃ r, r < s.heap.length ∧ hget (sink s top).heap q = hget s.heap r := by
  simp only [sink, swim]
  have hb := sinkLoop_pos_bound s.maxpq s.heap.length s.heap s.nodefinder top hl
  have hr4 := sinkLoop_heap_length s.maxpq s.heap.length s.heap s.nodefinder top
  have hsm := sinkLoop_mem s.maxpq s.heap.length s.heap s.nodefinder top hl
  generalize hR : sinkLoop s.maxpq s.heap s.nodefinder top s.heap.length = R
    at hb hr4 hsm ⊢
  obtain ⟨rh, rf, rpos⟩ := R
  simp only at hb hr4 hsm ⊢
  obtain ⟨hb1, hb2⟩ := hb
  have hset_len : (rh.set rpos (hget s.heap top)).length = s.heap.length := by
    rw [List.length_set, hr4]
  have hget_back : hget (rh.set rpos (hget s.heap top)) rpos = hget s.heap top :=
    hget_set_self (by rw [hr4]; exact hb2)
  rw [hget_back]
  intro q hq
  rw [swimLoop_length, hset_len] at hq
  rcases swimLoop_mem s.maxpq (hget s.heap top) top (rpos + 1)
      (rh.set rpos (hget s.heap top)) (dictSet rf (hget s.heap top).dkey rpos) rpos
      (by rw [hset_len]; exact hb2) q (by rw [hset_len]; exact hq) with
    hqe | ⟨rr, hrr, hval⟩
  · exact ⟨top, hl, hqe⟩
  · rw [hset_len] at hrr
    by_cases hrrp : rr = rpos
    · subst hrrp
      rw [hget_set_self (by rw [hr4]; exact hb2)] at hval
      exact ⟨top, hl, hval⟩
    · rw [hget_set_ne (fun he => hrrp he.symm)] at hval
      obtain ⟨rs, hrs, hvs⟩ := hsm rr (by omega)
      exact ⟨rs, hrs, by rw [hval]; exact hvs⟩

theorem priOrd_trans {mx : Bool} {a b c : P}
    (h1 : priOrd mx a b) (h2 : priOrd mx b c) : priOrd mx a c := by
  cases mx <;> simp [priOrd] at h1 h2 ⊢
  · exact le_trans h1 h2
  · exact le_trans h2 h1

/-- Inserting a fresh key preserves heap order (the `__setitem__` insert
branch: append then swim). -/
theorem setitem_insert_heapOrd {s : PQDict K P} {k : K} {p : P}
    (habs : dictGet s.nodefinder k = none) (hho : HeapOrd s.maxpq s.heap) :
    HeapOrd (setitem s k p).maxpq (setitem s k p).heap ∧
    (setitem s k p).heap.length = s.heap.length + 1 ∧
    (setitem s k p).maxpq = s.maxpq := by
  have hlen : (s.heap ++ [(⟨k, p⟩ : Entry K P)]).length = s.heap.length + 1 := by
    simp
  have hmain : SubHeapOrd s.maxpq
      (swimLoop s.maxpq (hget (s.heap ++ [(⟨k, p⟩ : Entry K P)]) s.heap.length) 0
        (s.heap ++ [⟨k, p⟩]) (dictSet s.nodefinder k s.heap.length)
        s.heap.length (s.heap.length + 1)).1 0 := by
    refine swimLoop_subHeapOrd s.maxpq _ 0 (s.heap.length + 1)
      (s.heap ++ [⟨k, p⟩]) _ s.heap.length (by omega) (by rw [hlen]; omega) (by omega)
      (isDesc_zero _) ?_ ?_ ?_
    · intro i hi h0i hdi hit hin hpin
      rw [hlen] at hi
      have hilt : i < s.heap.length := by omega
      have hplt : parentIdx i < s.heap.length := by
        have := parentIdx_lt h0i; omega
      rw [hget_append_lt s.heap _ hilt, hget_append_lt s.heap _ hplt]
      exact hho i hilt h0i
    · intro c hc h0c hpc hcn
      rw [hlen] at hc
      have := lt_of_parentIdx_eq h0c hpc
      have := child_eq_of_parentIdx h0c
      omega
    · intro _ c hc h0c hpc hcn
      rw [hlen] at hc
      have := child_eq_of_parentIdx h0c
      omega
  simp only [setitem, habs, swim]
  refine ⟨?_, ?_, trivial⟩
  · rw [heapOrd_iff_subHeapOrd_zero]
    exact hmain
  · rw [swimLoop_length, hlen]

/-- In a heap-ordered array the root ranks at least as high as every entry. -/
theorem heapOrd_root {mx : Bool} {h : List (Entry K P)} (hho : HeapOrd mx h) :
    ∀ q, q < h.length → rankLE mx (hget h 0) (hget h q) := by
  intro q
  induction q using Nat.strong_induction_on with
  | _ q ih =>
      intro hq
      by_cases h0 : q = 0
      · subst h0; exact rankLE_refl mx _
      · have h0q : 0 < q := by omega
        have hp := parentIdx_lt h0q
        exact rankLE_trans (ih (parentIdx q) hp (by omega)) (hho q hq h0q)

/-- `popitem` on a heap-ordered nonempty queue returns the root pair, keeps
heap order, shrinks the heap by one, and only rearranges existing entries. -/
theorem popitem_ord_spec {s : PQDict K P} (hne : s.heap ≠ [])
    (hho : HeapOrd s.maxpq s.heap) :
    ∃ s', popitem s = some (((hget s.heap 0).dkey, (hget s.heap 0).pkey), s') ∧
      HeapOrd s'.maxpq s'.heap ∧ s'.maxpq = s.maxpq ∧
      s'.heap.length + 1 = s.heap.length ∧
      (∀ q, q < s'.heap.length → ∃ r, r < s.heap.length ∧
        hget s'.heap q = hget s.heap r) := by
  have hlast : s.heap.getLast? = some (hget s.heap (s.heap.length - 1)) := by
    rw [List.getLast?_eq_getLast s.heap hne, hget_getLast s.heap hne]
  have hlpos : 0 < s.heap.length := List.length_pos.2 hne
  have hdlen : s.heap.dropLast.length = s.heap.length - 1 := List.length_dropLast s.heap
  by_cases hone : s.heap.length = 1
  · -- singleton heap: remove and return directly
    have hdrop : s.heap.dropLast = [] := by
      apply List.length_eq_zero.1
      rw [hdlen, hone]
    have hl0 : hget s.heap (s.heap.length - 1) = hget s.heap 0 := by rw [hone]
    refine ⟨⟨s.maxpq, [], dictPop s.nodefinder (hget s.heap 0).dkey⟩, ?_, ?_, rfl, ?_, ?_⟩
    · simp [popitem, hlast, hdrop, hl0]
    · intro i hi h0i
      simp at hi
    · simp only [List.length_nil]
      omega
    · intro q hq
      simp at hq
  · -- at least two entries: move the last entry to the root and sink it
    have hlen2 : 2 ≤ s.heap.length := by omega
    have hdne : ¬ s.heap.dropLast.isEmpty = true := by
      rw [List.isEmpty_iff]
      intro hE
      have := congrArg List.length hE
      rw [hdlen] at this
      simp at this
      omega
    have hentry : hget s.heap.dropLast 0 = hget s.heap 0 :=
      hget_dropLast s.heap (by omega)
    set last := hget s.heap (s.heap.length - 1) with hlastdef
    set s2 := (⟨s.maxpq, s.heap.dropLast.set 0 last, dictSet s.nodefinder last.dkey 0⟩ : PQDict K P) with hs2def
    have hs2len : s2.heap.length = s.heap.length - 1 := by
      simp [hs2def, List.length_set, hdlen]
    have hs2get : ∀ q, q < s2.heap.length →
        ∃ r, r < s.heap.length ∧ hget s2.heap q = hget s.heap r := by
      intro q hq
      rw [hs2len] at hq
      by_cases hq0 : q = 0
      · subst hq0
        refine ⟨s.heap.length - 1, by omega, ?_⟩
        show hget (s.heap.dropLast.set 0 last) 0 = last
        exact hget_set_self (by rw [hdlen]; omega)
      · refine ⟨q, by omega, ?_⟩
        show hget (s.heap.dropLast.set 0 last) q = hget s.heap q
        rw [hget_set_ne (fun he => hq0 he.symm)]
        exact hget_dropLast s.heap (by omega)
    have hsdo : StrictDescOrd s2.maxpq s2.heap 0 := by
      intro i hi h0i hdi hit hpi0
      rw [hs2len] at hi
      have hplt : parentIdx i < i := parentIdx_lt h0i
      show rankLE s.maxpq (hget (s.heap.dropLast.set 0 last) (parentIdx i))
        (hget (s.heap.dropLast.set 0 last) i)
      rw [hget_set_ne (Ne.symm hpi0), hget_set_ne (Ne.symm hit),
        hget_dropLast s.heap (by omega), hget_dropLast s.heap (by omega)]
      exact hho i (by omega) h0i
    have hs2pos : 0 < s2.heap.length := by omega
    obtain ⟨hsub, hslen, hsmax⟩ := sink_subHeapOrd hs2pos hsdo
    refine ⟨⟨(sink s2 0).maxpq, (sink s2 0).heap,
      dictPop (sink s2 0).nodefinder (hget s.heap 0).dkey⟩, ?_, ?_, ?_, ?_, ?_⟩
    · simp only [popitem, hlast, if_neg hdne, hentry]
    · show HeapOrd (sink s2 0).maxpq (sink s2 0).heap
      rw [heapOrd_iff_subHeapOrd_zero, hsmax]
      exact hsub
    · show (sink s2 0).maxpq = s.maxpq
      rw [hsmax]
    · show (sink s2 0).heap.length + 1 = s.heap.length
      rw [hslen, hs2len]
      omega
    · intro q hq
      obtain ⟨r2, hr2, hv2⟩ := sink_mem hs2pos q hq
      obtain ⟨r3, hr3, hv3⟩ := hs2get r2 hr2
      exact ⟨r3, hr3, by rw [hv2, hv3]⟩

/-- Popping everything from a heap-ordered queue yields pairwise-ordered
priorities; every popped pair is an entry of the starting heap. -/
theorem popAllAux_sorted :
    ∀ (fuel : Nat) (s : PQDict K P), s.heap.length = fuel →
      HeapOrd s.maxpq s.heap →
      List.Chain' (fun a b => priOrd s.maxpq a.2 b.2) (popAllAux fuel s) ∧
      (∀ kp ∈ popAllAux fuel s, ∃ r, r < s.heap.length ∧
        hget s.heap r = ⟨kp.1, kp.2⟩) ∧
      (popAllAux fuel s).length = fuel := by
  intro fuel
  induction fuel with
  | zero => intro s hlen hho; simp [popAllAux]
  | succ fl ih =>
      intro s hlen hho
      have hne : s.heap ≠ [] := by
        intro he; rw [he] at hlen; simp at hlen
      obtain ⟨s', hpop, hho', hmax', hlen', hmem'⟩ := popitem_ord_spec hne hho
      simp only [popAllAux, hpop]
      obtain ⟨hchain, hmem, hlenr⟩ := ih s' (by omega) hho'
      rw [hmax'] at hchain
      refine ⟨?_, ?_, by simpa using hlenr⟩
      · rw [List.chain'_cons']
        refine ⟨?_, hchain⟩
        intro b hb
        have hbmem : b ∈ popAllAux fl s' := List.mem_of_mem_head? hb
        obtain ⟨r, hr, hval⟩ := hmem b hbmem
        obtain ⟨r2, hr2, hval2⟩ := hmem' r hr
        have hdom := heapOrd_root hho r2 hr2
        rw [← hval2, hval] at hdom
        exact priOrd_of_rankLE hdom
      · intro kp hkp
        rcases List.mem_cons.1 hkp with he | hm
        · exact ⟨0, by omega, by rw [he]⟩
        · obtain ⟨r, hr, hval⟩ := hmem kp hm
          obtain ⟨r2, hr2, hval2⟩ := hmem' r hr
          exact ⟨r2, hr2, by rw [← hval2, hval]⟩

/-- Keys present in the finder after the swim loop were present before, or are
the moved entry's key, or are keys of heap entries. -/
theorem swimLoop_finder_isSome (mx : Bool) (e : Entry K P) (top : Nat) :
    ∀ (fuel : Nat) (h : List (Entry K P)) (f : Finder K) (pos : Nat),
      pos < h.length →
      ∀ k, (dictGet (swimLoop mx e top h f pos fuel).2 k).isSome →
        (dictGet f k).isSome ∨ k = e.dkey ∨
          ∃ r, r < h.length ∧ (hget h r).dkey = k := by
  intro fuel
  induction fuel with
  | zero =>
      intro h f pos hl k hk
      simp only [swimLoop] at hk
      rcases (isSome_dictGet_dictSet f e.dkey k pos).1 hk with he | hf
      · exact Or.inr (Or.inl he.symm)
      · exact Or.inl hf
  | succ fl ih =>
      intro h f pos hl k hk
      rw [swimLoop] at hk
      by_cases hlt : top < pos
      · rw [if_pos hlt] at hk
        by_cases hcmp : entryLT mx e (hget h (parentIdx pos)) = true
        · rw [if_pos hcmp] at hk
          have hpl : parentIdx pos < h.length := by
            have := parentIdx_lt (show 0 < pos by omega); omega
          rcases ih (h.set pos (hget h (parentIdx pos)))
              (dictSet f (hget h (parentIdx pos)).dkey pos) (parentIdx pos)
              (by rw [List.length_set]; omega) k hk with hf | he | ⟨r, hr, hval⟩
          · rcases (isSome_dictGet_dictSet f (hget h (parentIdx pos)).dkey k pos).1 hf with
              he' | hf'
            · exact Or.inr (Or.inr ⟨parentIdx pos, hpl, he'⟩)
            · exact Or.inl hf'
          · exact Or.inr (Or.inl he)
          · rw [List.length_set] at hr
            by_cases hrp : r = pos
            · subst hrp
              rw [hget_set_self hl] at hval
              exact Or.inr (Or.inr ⟨parentIdx r, hpl, hval⟩)
            · rw [hget_set_ne (fun he => hrp he.symm)] at hval
              exact Or.inr (Or.inr ⟨r, hr, hval⟩)
        · rw [if_neg hcmp] at hk
          rcases (isSome_dictGet_dictSet f e.dkey k pos).1 hk with he | hf
          · exact Or.inr (Or.inl he.symm)
          · exact Or.inl hf
      · rw [if_neg hlt] at hk
        rcases (isSome_dictGet_dictSet f e.dkey k pos).1 hk with he | hf
        · exact Or.inr (Or.inl he.symm)
        · exact Or.inl hf

/-- Key-tracking of the `__setitem__` insert branch: new finder keys come from
the old finder, the new key, or existing heap entries; new heap entries are
the appended one or old ones. -/
theorem setitem_insert_keys {s : PQDict K P} {k : K} {p : P}
    (habs : dictGet s.nodefinder k = none) :
    (∀ k', (dictGet (setitem s k p).nodefinder k').isSome →
      (dictGet s.nodefinder k').isSome ∨ k' = k ∨
        ∃ r, r < s.heap.length ∧ (hget s.heap r).dkey = k') ∧
    (∀ r, r < (setitem s k p).heap.length →
      hget (setitem s k p).heap r = ⟨k, p⟩ ∨
        ∃ q, q < s.heap.length ∧ hget (setitem s k p).heap r = hget s.heap q) := by
  have hlen : (s.heap ++ [(⟨k, p⟩ : Entry K P)]).length = s.heap.length + 1 := by simp
  have happ : hget (s.heap ++ [(⟨k, p⟩ : Entry K P)]) s.heap.length = ⟨k, p⟩ :=
    hget_append_self s.heap ⟨k, p⟩
  simp only [setitem, habs, swim]
  rw [happ]
  constructor
  · intro k' hk'
    rcases swimLoop_finder_isSome s.maxpq (⟨k, p⟩ : Entry K P) 0 (s.heap.length + 1)
        (s.heap ++ [⟨k, p⟩]) (dictSet s.nodefinder k s.heap.length) s.heap.length
        (by rw [hlen]; omega) k' hk' with hf | he | ⟨r, hr, hval⟩
    · rcases (isSome_dictGet_dictSet s.nodefinder k k' s.heap.length).1 hf with he' | hf'
      · exact Or.inr (Or.inl he'.symm)
      · exact Or.inl hf'
    · exact Or.inr (Or.inl he)
    · rw [hlen] at hr
      by_cases hrn : r = s.heap.length
      · subst hrn
        rw [happ] at hval
        exact Or.inr (Or.inl hval.symm)
      · have hr' : r < s.heap.length := by omega
        rw [hget_append_lt s.heap (⟨k, p⟩ : Entry K P) hr'] at hval
        exact Or.inr (Or.inr ⟨r, hr', hval⟩)
  · intro r hr
    rw [swimLoop_length, hlen] at hr
    rcases swimLoop_mem s.maxpq (⟨k, p⟩ : Entry K P) 0 (s.heap.length + 1)
        (s.heap ++ [⟨k, p⟩]) (dictSet s.nodefinder k s.heap.length) s.heap.length
        (by rw [hlen]; omega) r (by rw [hlen]; omega) with he | ⟨q, hq, hval⟩
    · exact Or.inl he
    · rw [hlen] at hq
      by_cases hqn : q = s.heap.length
      · subst hqn
        rw [happ] at hval
        exact Or.inl hval
      · have hq' : q < s.heap.length := by omega
        rw [hget_append_lt s.heap (⟨k, p⟩ : Entry K P) hq'] at hval
        exact Or.inr ⟨q, hq', hval⟩

/-- Folding distinct fresh keys into a queue through `__setitem__` keeps heap
order, grows the heap by one entry per pair, and preserves the entry class. -/
theorem insertAll_fold (pairs : List (K × P)) :
    ∀ (s : PQDict K P) (done : List K),
      HeapOrd s.maxpq s.heap →
      (∀ k, (dictGet s.nodefinder k).isSome → k ∈ done) →
      (∀ r, r < s.heap.length → (hget s.heap r).dkey ∈ done) →
      (∀ k ∈ pairs.map Prod.fst, k ∉ done) →
      (pairs.map Prod.fst).Nodup →
      HeapOrd (pairs.foldl (fun t kp => setitem t kp.1 kp.2) s).maxpq
        (pairs.foldl (fun t kp => setitem t kp.1 kp.2) s).heap ∧
      (pairs.foldl (fun t kp => setitem t kp.1 kp.2) s).heap.length =
        s.heap.length + pairs.length ∧
      (pairs.foldl (fun t kp => setitem t kp.1 kp.2) s).maxpq = s.maxpq := by
  induction pairs with
  | nil => intro s done hho _ _ _ _; exact ⟨hho, by simp, rfl⟩
  | cons kp rest ih =>
      intro s done hho hfin hheap hfresh hnd
      simp only [List.foldl_cons]
      have hkpfresh : kp.1 ∉ done := hfresh kp.1 (by simp)
      have habs : dictGet s.nodefinder kp.1 = none := by
        cases hg : dictGet s.nodefinder kp.1 with
        | none => rfl
        | some v => exact absurd (hfin kp.1 (by simp [hg])) hkpfresh
      obtain ⟨hho1, hlen1, hmax1⟩ := setitem_insert_heapOrd habs hho
      obtain ⟨hkeys1, hmem1⟩ := @setitem_insert_keys K P _ _ _ _ s kp.1 kp.2 habs
      have hfin1 : ∀ k, (dictGet (setitem s kp.1 kp.2).nodefinder k).isSome →
          k ∈ done ++ [kp.1] := by
        intro k hk
        rcases hkeys1 k hk with hf | he | ⟨r, hr, hval⟩
        · exact List.mem_append_left _ (hfin k hf)
        · exact List.mem_append_right _ (by simp [he])
        · exact List.mem_append_left _ (hval ▸ hheap r hr)
      have hheap1 : ∀ r, r < (setitem s kp.1 kp.2).heap.length →
          (hget (setitem s kp.1 kp.2).heap r).dkey ∈ done ++ [kp.1] := by
        intro r hr
        rcases hmem1 r hr with he | ⟨q, hq, hval⟩
        · rw [he]
          exact List.mem_append_right _ (by simp)
        · rw [hval]
          exact List.mem_append_left _ (hheap q hq)
      have hfresh1 : ∀ k ∈ rest.map Prod.fst, k ∉ done ++ [kp.1] := by
        intro k hk hmem
        rcases List.mem_append.1 hmem with hd | hs
        · exact hfresh k (by simp [hk]) hd
        · simp only [List.mem_singleton] at hs
          subst hs
          simp only [List.map_cons, List.nodup_cons] at hnd
          exact hnd.1 hk
      have hnd1 : (rest.map Prod.fst).Nodup := by
        simp only [List.map_cons, List.nodup_cons] at hnd
        exact hnd.2
      obtain ⟨h1, h2, h3⟩ := ih (setitem s kp.1 kp.2) (done ++ [kp.1])
        hho1 hfin1 hheap1 hfresh1 hnd1
      refine ⟨h1, ?_, by rw [h3, hmax1]⟩
      rw [h2, hlen1]
      simp
      omega

theorem inv_bij2 {s : PQDict K P} (hinv : Inv s) :
    ∀ k q, dictGet s.nodefinder k = some q →
      q < s.heap.length ∧ (hget s.heap q).dkey = k := by
  intro k q hq
  exact hinv.2.1 (k, q) (mem_of_dictGet hq)

theorem inv_nodupIdx {s : PQDict K P} (hinv : Inv s) :
    ∀ i j, i < s.heap.length → j < s.heap.length → i ≠ j →
      (hget s.heap i).dkey ≠ (hget s.heap j).dkey := by
  intro i j hi hj hij he
  have h1 := hinv.1 i hi
  have h2 := hinv.1 j hj
  rw [he, h2] at h1
  exact hij (Option.some.inj h1).symm

theorem inv_of_bij {mx : Bool} {h : List (Entry K P)} {f : Finder K}
    (h1 : ∀ q, q < h.length → dictGet f (hget h q).dkey = some q)
    (h2 : ∀ k q, dictGet f k = some q → q < h.length ∧ (hget h q).dkey = k)
    (h3 : keysNodup f) : Inv ⟨mx, h, f⟩ := by
  refine ⟨h1, ?_, h3⟩
  intro kv hkv
  exact h2 kv.1 kv.2 (dictGet_of_mem_nodup h3 hkv)

/-! ### One hole-moving step of either loop maintains the index invariants

Both loops perform the same index manipulation: with a hole at `a` (whose
logical occupant is the carried entry `e`), move the entry at `b` into `a`,
record its new position, and continue with the hole at `b`. -/

theorem hole_step_index {h : List (Entry K P)} {f : Finder K} {e : Entry K P}
    {a b : Nat} (ha : a < h.length) (hb : b < h.length) (hab : a ≠ b)
    (hN : NodupIdx (h.set a e))
    (hJ : ∀ q, q < h.length → q ≠ a → dictGet f (hget h q).dkey = some q)
    (hK : ∀ k q, dictGet f k = some q → q < h.length ∧
      (k ≠ e.dkey → q ≠ a ∧ (hget h q).dkey = k))
    (hE : (dictGet f e.dkey).isSome)
    (hnd : keysNodup f) :
    NodupIdx ((h.set a (hget h b)).set b e) ∧
    (∀ q, q < h.length → q ≠ b →
      dictGet (dictSet f (hget h b).dkey a) (hget (h.set a (hget h b)) q).dkey = some q) ∧
    (∀ k q, dictGet (dictSet f (hget h b).dkey a) k = some q → q < h.length ∧
      (k ≠ e.dkey → q ≠ b ∧ (hget (h.set a (hget h b)) q).dkey = k)) ∧
    (dictGet (dictSet f (hget h b).dkey a) e.dkey).isSome ∧
    keysNodup (dictSet f (hget h b).dkey a) ∧
    (dictSet f (hget h b).dkey a).length = f.length ∧
    (∀ k, k ≠ e.dkey →
      (dictGet (dictSet f (hget h b).dkey a) k).map (hget (h.set a (hget h b))) =
      (dictGet f k).map (hget h)) := by
  simp only [NodupIdx, List.length_set] at hN ⊢
  have hLa : hget (h.set a e) a = e := hget_set_self ha
  have hLb : hget (h.set a e) b = hget h b := hget_set_ne hab
  have hLx : ∀ x, x ≠ a → hget (h.set a e) x = hget h x := by
    intro x hx
    exact hget_set_ne (fun he => hx he.symm)
  have hbkey : (hget h b).dkey ≠ e.dkey := by
    have := hN b a hb ha (Ne.symm hab)
    rwa [hLb, hLa] at this
  have hv_a : hget (h.set a (hget h b)) a = hget h b := hget_set_self ha
  have hv_x : ∀ x, x ≠ a → hget (h.set a (hget h b)) x = hget h x := by
    intro x hx
    exact hget_set_ne (fun he => hx he.symm)
  have hfb : dictGet f (hget h b).dkey = some b := hJ b hb (Ne.symm hab)
  refine ⟨?_, ?_, ?_, ?_, keysNodup_dictSet f _ a hnd,
    length_dictSet_present f _ a (by rw [hfb]; rfl), ?_⟩
  · -- the new logical heap is a transposition of the old one
    intro i j hi hj hij
    have val : ∀ x, x < h.length → ∃ y, y < h.length ∧
        hget ((h.set a (hget h b)).set b e) x = hget (h.set a e) y ∧
        (x = a → y = b) ∧ (x = b → y = a) ∧ (x ≠ a → x ≠ b → y = x) := by
      intro x hx
      by_cases h1 : x = b
      · subst h1
        refine ⟨a, ha, ?_, by omega, fun _ => rfl, by omega⟩
        rw [hget_set_self (by rw [List.length_set]; exact hb), hLa]
      · by_cases h2 : x = a
        · subst h2
          refine ⟨b, hb, ?_, fun _ => rfl, by omega, by omega⟩
          rw [hget_set_ne (fun he => h1 he.symm), hv_a, hLb]
        · refine ⟨x, hx, ?_, by omega, by omega, fun _ _ => rfl⟩
          rw [hget_set_ne (fun he => h1 he.symm), hv_x x h2, hLx x h2]
    obtain ⟨yi, hyi, hvi, hia, hib, hix⟩ := val i hi
    obtain ⟨yj, hyj, hvj, hja, hjb, hjx⟩ := val j hj
    rw [hvi, hvj]
    apply hN yi yj hyi hyj
    have hyi_eq : (i = a ∧ yi = b) ∨ (i = b ∧ yi = a) ∨ (i ≠ a ∧ i ≠ b ∧ yi = i) := by
      by_cases h1 : i = a
      · exact Or.inl ⟨h1, hia h1⟩
      · by_cases h2 : i = b
        · exact Or.inr (Or.inl ⟨h2, hib h2⟩)
        · exact Or.inr (Or.inr ⟨h1, h2, hix h1 h2⟩)
    have hyj_eq : (j = a ∧ yj = b) ∨ (j = b ∧ yj = a) ∨ (j ≠ a ∧ j ≠ b ∧ yj = j) := by
      by_cases h1 : j = a
      · exact Or.inl ⟨h1, hja h1⟩
      · by_cases h2 : j = b
        · exact Or.inr (Or.inl ⟨h2, hjb h2⟩)
        · exact Or.inr (Or.inr ⟨h1, h2, hjx h1 h2⟩)
    rcases hyi_eq with ⟨e1, e2⟩ | ⟨e1, e2⟩ | ⟨e1, e2, e3⟩ <;>
      rcases hyj_eq with ⟨f1, f2⟩ | ⟨f1, f2⟩ | ⟨f1, f2, f3⟩ <;> omega
  · -- bindings away from the new hole
    intro q hq hqb
    by_cases hqa : q = a
    · subst hqa
      rw [hv_a, dictGet_dictSet_self]
    · rw [hv_x q hqa]
      have hkey : (hget h q).dkey ≠ (hget h b).dkey := by
        have := hN q b hq hb hqb
        rwa [hLx q hqa, hLb] at this
      rw [dictGet_dictSet_ne f a (fun he => hkey he.symm)]
      exact hJ q hq hqa
  · -- every binding of the new finder
    intro k q hkq
    by_cases hkb : k = (hget h b).dkey
    · subst hkb
      rw [dictGet_dictSet_self] at hkq
      have : q = a := (Option.some.inj hkq).symm
      subst this
      exact ⟨ha, fun _ => ⟨hab, by rw [hv_a]⟩⟩
    · rw [dictGet_dictSet_ne f a (fun he => hkb he.symm)] at hkq
      obtain ⟨hql, hqr⟩ := hK k q hkq
      refine ⟨hql, ?_⟩
      intro hke
      obtain ⟨hqa, hqd⟩ := hqr hke
      refine ⟨?_, by rw [hv_x q hqa]; exact hqd⟩
      intro hqb
      subst hqb
      exact hkb hqd.symm
  · exact (isSome_dictGet_dictSet f _ e.dkey a).2 (Or.inr hE)
  · -- per-key associations away from the carried entry
    intro k hke
    by_cases hkb : k = (hget h b).dkey
    · subst hkb
      rw [dictGet_dictSet_self, hfb]
      simp only [Option.map_some']
      rw [hv_a]
    · rw [dictGet_dictSet_ne f a (fun he => hkb he.symm)]
      cases hg : dictGet f k with
      | none => simp
      | some q =>
          obtain ⟨hql, hqr⟩ := hK k q hg
          obtain ⟨hqa, _⟩ := hqr hke
          simp only [Option.map_some']
          rw [hv_x q hqa]

/-! ### Final placement of the carried entry restores the full bijection -/

theorem hole_place_index {h : List (Entry K P)} {f : Finder K} {e : Entry K P}
    {a : Nat} (ha : a < h.length)
    (hN : NodupIdx (h.set a e))
    (hJ : ∀ q, q < h.length → q ≠ a → dictGet f (hget h q).dkey = some q)
    (hK : ∀ k q, dictGet f k = some q → q < h.length ∧
      (k ≠ e.dkey → q ≠ a ∧ (hget h q).dkey = k))
    (hE : (dictGet f e.dkey).isSome)
    (hnd : keysNodup f) :
    (∀ q, q < h.length →
      dictGet (dictSet f e.dkey a) (hget (h.set a e) q).dkey = some q) ∧
    (∀ k q, dictGet (dictSet f e.dkey a) k = some q →
      q < h.length ∧ (hget (h.set a e) q).dkey = k) ∧
    keysNodup (dictSet f e.dkey a) ∧
    (dictSet f e.dkey a).length = f.length ∧
    (∀ k, k ≠ e.dkey →
      (dictGet (dictSet f e.dkey a) k).map (hget (h.set a e)) =
      (dictGet f k).map (hget h)) ∧
    (dictGet (dictSet f e.dkey a) e.dkey = some a ∧ hget (h.set a e) a = e) := by
  simp only [NodupIdx, List.length_set] at hN
  have hLa : hget (h.set a e) a = e := hget_set_self ha
  have hLx : ∀ x, x ≠ a → hget (h.set a e) x = hget h x := by
    intro x hx
    exact hget_set_ne (fun he => hx he.symm)
  refine ⟨?_, ?_, keysNodup_dictSet f _ a hnd, length_dictSet_present f _ a hE, ?_,
    dictGet_dictSet_self f _ a, hLa⟩
  · intro q hq
    by_cases hqa : q = a
    · subst hqa
      rw [hLa, dictGet_dictSet_self]
    · rw [hLx q hqa]
      have hkey : (hget h q).dkey ≠ e.dkey := by
        have := hN q a hq ha hqa
        rwa [hLx q hqa, hLa] at this
      rw [dictGet_dictSet_ne f a (fun he => hkey he.symm)]
      exact hJ q hq hqa
  · intro k q hkq
    by_cases hke : k = e.dkey
    · subst hke
      rw [dictGet_dictSet_self] at hkq
      have : q = a := (Option.some.inj hkq).symm
      subst this
      exact ⟨ha, by rw [hLa]⟩
    · rw [dictGet_dictSet_ne f a (fun he => hke he.symm)] at hkq
      obtain ⟨hql, hqr⟩ := hK k q hkq
      obtain ⟨hqa, hqd⟩ := hqr hke
      exact ⟨hql, by rw [hLx q hqa]; exact hqd⟩
  · intro k hke
    rw [dictGet_dictSet_ne f a (fun he => hke he.symm)]
    cases hg : dictGet f k with
    | none => simp
    | some q =>
        obtain ⟨hql, hqr⟩ := hK k q hg
        obtain ⟨hqa, _⟩ := hqr hke
        simp only [Option.map_some']
        rw [hLx q hqa]

/-! ### The loops maintain the index invariants -/

theorem swimLoop_index (mx : Bool) (e : Entry K P) (top : Nat) :
    ∀ (fuel : Nat) (h : List (Entry K P)) (f : Finder K) (pos : Nat),
      pos < fuel → pos < h.length →
      NodupIdx (h.set pos e) →
      (∀ q, q < h.length → q ≠ pos → dictGet f (hget h q).dkey = some q) →
      (∀ k q, dictGet f k = some q → q < h.length ∧
        (k ≠ e.dkey → q ≠ pos ∧ (hget h q).dkey = k)) →
      (dictGet f e.dkey).isSome →
      keysNodup f →
      (∀ q, q < h.length →
        dictGet (swimLoop mx e top h f pos fuel).2
          (hget (swimLoop mx e top h f pos fuel).1 q).dkey = some q) ∧
      (∀ k q, dictGet (swimLoop mx e top h f pos fuel).2 k = some q →
        q < h.length ∧ (hget (swimLoop mx e top h f pos fuel).1 q).dkey = k) ∧
      keysNodup (swimLoop mx e top h f pos fuel).2 ∧
      (swimLoop mx e top h f pos fuel).2.length = f.length ∧
      (∀ k, k ≠ e.dkey →
        (dictGet (swimLoop mx e top h f pos fuel).2 k).map
          (hget (swimLoop mx e top h f pos fuel).1) =
        (dictGet f k).map (hget h)) ∧
      (∃ fpos, fpos < h.length ∧
        dictGet (swimLoop mx e top h f pos fuel).2 e.dkey = some fpos ∧
        hget (swimLoop mx e top h f pos fuel).1 fpos = e) := by
  intro fuel
  induction fuel with
  | zero => intro h f pos hfuel; omega
  | succ fl ih =>
      intro h f pos hfuel hl hN hJ hK hE hnd
      rw [swimLoop]
      by_cases hlt : top < pos
      · simp only [if_pos hlt]
        by_cases hcmp : entryLT mx e (hget h (parentIdx pos)) = true
        · simp only [if_pos hcmp]
          have h0 : 0 < pos := by omega
          have hplt := parentIdx_lt h0
          have hpl : parentIdx pos < h.length := by omega
          have hab : pos ≠ parentIdx pos := by omega
          obtain ⟨s1, s2, s3, s4, s5, s6, s7⟩ :=
            hole_step_index hl hpl hab hN hJ hK hE hnd
          obtain ⟨c2, c3, c4, c5, c6, c7⟩ := ih (h.set pos (hget h (parentIdx pos)))
            (dictSet f (hget h (parentIdx pos)).dkey pos) (parentIdx pos)
            (by omega) (by rw [List.length_set]; omega) s1
            (by
              intro q hq hqb
              exact s2 q (by rwa [List.length_set] at hq) hqb)
            (by
              intro k q hkq
              obtain ⟨hq1, hq2⟩ := s3 k q hkq
              exact ⟨by rw [List.length_set]; exact hq1, hq2⟩)
            s4 s5
          refine ⟨?_, ?_, c4, ?_, ?_, ?_⟩
          · intro q hq
            exact c2 q (by rw [List.length_set]; exact hq)
          · intro k q hkq
            obtain ⟨hq1, hq2⟩ := c3 k q hkq
            exact ⟨by rwa [List.length_set] at hq1, hq2⟩
          · rw [c5, s6]
          · intro k hk
            rw [c6 k hk, s7 k hk]
          · obtain ⟨fpos, hf1, hf2, hf3⟩ := c7
            exact ⟨fpos, by rwa [List.length_set] at hf1, hf2, hf3⟩
        · simp only [if_neg hcmp]
          obtain ⟨p1, p2, p3, p4, p5, p6⟩ := hole_place_index hl hN hJ hK hE hnd
          exact ⟨p1, p2, p3, p4, p5, pos, hl, p6.1, p6.2⟩
      · simp only [if_neg hlt]
        obtain ⟨p1, p2, p3, p4, p5, p6⟩ := hole_place_index hl hN hJ hK hE hnd
        exact ⟨p1, p2, p3, p4, p5, pos, hl, p6.1, p6.2⟩

theorem sinkLoop_index (mx : Bool) (e : Entry K P) :
    ∀ (fuel : Nat) (h : List (Entry K P)) (f : Finder K) (pos : Nat),
      h.length - pos ≤ fuel → pos < h.length →
      NodupIdx (h.set pos e) →
      (∀ q, q < h.length → q ≠ pos → dictGet f (hget h q).dkey = some q) →
      (∀ k q, dictGet f k = some q → q < h.length ∧
        (k ≠ e.dkey → q ≠ pos ∧ (hget h q).dkey = k)) →
      (dictGet f e.dkey).isSome →
      keysNodup f →
      NodupIdx ((sinkLoop mx h f pos fuel).1.set (sinkLoop mx h f pos fuel).2.2 e) ∧
      (∀ q, q < h.length → q ≠ (sinkLoop mx h f pos fuel).2.2 →
        dictGet (sinkLoop mx h f pos fuel).2.1
          (hget (sinkLoop mx h f pos fuel).1 q).dkey = some q) ∧
      (∀ k q, dictGet (sinkLoop mx h f pos fuel).2.1 k = some q → q < h.length ∧
        (k ≠ e.dkey → q ≠ (sinkLoop mx h f pos fuel).2.2 ∧
          (hget (sinkLoop mx h f pos fuel).1 q).dkey = k)) ∧
      (dictGet (sinkLoop mx h f pos fuel).2.1 e.dkey).isSome ∧
      keysNodup (sinkLoop mx h f pos fuel).2.1 ∧
      (sinkLoop mx h f pos fuel).2.1.length = f.length ∧
      (∀ k, k ≠ e.dkey →
        (dictGet (sinkLoop mx h f pos fuel).2.1 k).map
          (hget (sinkLoop mx h f pos fuel).1) =
        (dictGet f k).map (hget h)) := by
  intro fuel
  induction fuel with
  | zero => intro h f pos hfuel hl; omega
  | succ fl ih =>
      intro h f pos hfuel hl hN hJ hK hE hnd
      rw [sinkLoop]
      by_cases hchild : 2 * pos + 1 < h.length
      · simp only [if_pos hchild]
        have hcl : pickChild mx h (2 * pos + 1) < h.length ∧
            pos < pickChild mx h (2 * pos + 1) := by
          rcases pickChild_cases mx h (2 * pos + 1) with hc | ⟨hc, hcb⟩ <;>
            constructor <;> omega
        have hab : pos ≠ pickChild mx h (2 * pos + 1) := by omega
        obtain ⟨s1, s2, s3, s4, s5, s6, s7⟩ :=
          hole_step_index hl hcl.1 hab hN hJ hK hE hnd
        obtain ⟨c1, c2, c3, c4, c5, c6, c7⟩ :=
          ih (h.set pos (hget h (pickChild mx h (2 * pos + 1))))
            (dictSet f (hget h (pickChild mx h (2 * pos + 1))).dkey pos)
            (pickChild mx h (2 * pos + 1))
            (by rw [List.length_set]; omega) (by rw [List.length_set]; omega) s1
            (by
              intro q hq hqb
              exact s2 q (by rwa [List.length_set] at hq) hqb)
            (by
              intro k q hkq
              obtain ⟨hq1, hq2⟩ := s3 k q hkq
              exact ⟨by rw [List.length_set]; exact hq1, hq2⟩)
            s4 s5
        refine ⟨c1, ?_, ?_, c4, c5, ?_, ?_⟩
        · intro q hq hqr
          exact c2 q (by rw [List.length_set]; exact hq) hqr
        · intro k q hkq
          obtain ⟨hq1, hq2⟩ := c3 k q hkq
          exact ⟨by rwa [List.length_set] at hq1, hq2⟩
        · rw [c6, s6]
        · intro k hk
          rw [c7 k hk, s7 k hk]
      · simp only [if_neg hchild]
        exact ⟨hN, hJ, hK, hE, hnd, trivial, fun k hk => trivial⟩

/-- In a consistent state, peeling the entry at `pos` yields the hole-form
hypotheses of the loop lemmas. -/
theorem full_state_hole {s : PQDict K P} {pos : Nat} (hl : pos < s.heap.length)
    (hinv : Inv s) :
    NodupIdx (s.heap.set pos (hget s.heap pos)) ∧
    (∀ q, q < s.heap.length → q ≠ pos →
      dictGet s.nodefinder (hget s.heap q).dkey = some q) ∧
    (∀ k q, dictGet s.nodefinder k = some q → q < s.heap.length ∧
      (k ≠ (hget s.heap pos).dkey → q ≠ pos ∧ (hget s.heap q).dkey = k)) ∧
    (dictGet s.nodefinder (hget s.heap pos).dkey).isSome := by
  have hsame : ∀ x, x < s.heap.length →
      hget (s.heap.set pos (hget s.heap pos)) x = hget s.heap x := by
    intro x hx
    by_cases hxp : x = pos
    · subst hxp; exact hget_set_self hl
    · exact hget_set_ne (fun he => hxp he.symm)
  refine ⟨?_, ?_, ?_, ?_⟩
  · intro i j hi hj hij
    rw [List.length_set] at hi hj
    rw [hsame i hi, hsame j hj]
    exact inv_nodupIdx hinv i j hi hj hij
  · intro q hq _
    exact hinv.1 q hq
  · intro k q hkq
    obtain ⟨hql, hqd⟩ := inv_bij2 hinv k q hkq
    refine ⟨hql, ?_⟩
    intro hke
    refine ⟨?_, hqd⟩
    intro hqp
    subst hqp
    exact hke hqd.symm
  · rw [hinv.1 pos hl]
    rfl

/-- `_swim` keeps the index invariant, every key's association, and the sizes. -/
theorem swim_inv {s : PQDict K P} {pos top : Nat} (hl : pos < s.heap.length)
    (hinv : Inv s) :
    Inv (swim s pos top) ∧
    (∀ k, assocOf (swim s pos top) k = assocOf s k) ∧
    (swim s pos top).heap.length = s.heap.length ∧
    (swim s pos top).nodefinder.length = s.nodefinder.length ∧
    (swim s pos top).maxpq = s.maxpq := by
  obtain ⟨hN, hJ, hK, hE⟩ := full_state_hole hl hinv
  obtain ⟨c2, c3, c4, c5, c6, c7⟩ := swimLoop_index s.maxpq (hget s.heap pos) top
    (pos + 1) s.heap s.nodefinder pos (by omega) hl hN hJ hK hE hinv.2.2
  have hlen := swimLoop_length s.maxpq (hget s.heap pos) top
    (pos + 1) s.heap s.nodefinder pos
  simp only [swim, assocOf]
  refine ⟨?_, ?_, hlen, c5, trivial⟩
  · refine inv_of_bij ?_ ?_ c4
    · intro q hq
      rw [hlen] at hq
      exact c2 q hq
    · intro k q hkq
      obtain ⟨hq1, hq2⟩ := c3 k q hkq
      exact ⟨by rw [hlen]; exact hq1, hq2⟩
  · intro k
    by_cases hke : k = (hget s.heap pos).dkey
    · subst hke
      obtain ⟨fpos, hf1, hf2, hf3⟩ := c7
      rw [hf2, hinv.1 pos hl]
      simp only [Option.map_some']
      rw [hf3]
    · exact c6 k hke

/-- `_sink` keeps the index invariant, every key's association, and the sizes. -/
theorem sink_inv {s : PQDict K P} {top : Nat} (hl : top < s.heap.length)
    (hinv : Inv s) :
    Inv (sink s top) ∧
    (∀ k, assocOf (sink s top) k = assocOf s k) ∧
    (sink s top).heap.length = s.heap.length ∧
    (sink s top).nodefinder.length = s.nodefinder.length ∧
    (sink s top).maxpq = s.maxpq := by
  obtain ⟨hN, hJ, hK, hE⟩ := full_state_hole hl hinv
  obtain ⟨d1, d2, d3, d4, d5, d6, d7⟩ := sinkLoop_index s.maxpq (hget s.heap top)
    s.heap.length s.heap s.nodefinder top (by omega) hl hN hJ hK hE hinv.2.2
  have hlen := sinkLoop_heap_length s.maxpq s.heap.length s.heap s.nodefinder top
  have hpos := sinkLoop_pos_bound s.maxpq s.heap.length s.heap s.nodefinder top hl
  simp only [sink]
  generalize hR : sinkLoop s.maxpq s.heap s.nodefinder top s.heap.length = R
    at d1 d2 d3 d4 d5 d6 d7 hlen hpos ⊢
  obtain ⟨rh, rf, rpos⟩ := R
  simp only at d1 d2 d3 d4 d5 d6 d7 hlen hpos ⊢
  have hap : rpos < rh.length := by rw [hlen]; exact hpos.2
  have hJp : ∀ q, q < rh.length → q ≠ rpos → dictGet rf (hget rh q).dkey = some q := by
    intro q hq hqr
    exact d2 q (by rwa [hlen] at hq) hqr
  have hKp : ∀ k q, dictGet rf k = some q → q < rh.length ∧
      (k ≠ (hget s.heap top).dkey → q ≠ rpos ∧ (hget rh q).dkey = k) := by
    intro k q hkq
    obtain ⟨h1, h2⟩ := d3 k q hkq
    exact ⟨by rw [hlen]; exact h1, h2⟩
  obtain ⟨p1, p2, p3, p4, p5, p6⟩ := hole_place_index hap d1 hJp hKp d4 d5
  have hinv2 : Inv ⟨s.maxpq, rh.set rpos (hget s.heap top),
      dictSet rf (hget s.heap top).dkey rpos⟩ := by
    refine inv_of_bij ?_ ?_ p3
    · intro q hq
      rw [List.length_set] at hq
      exact p1 q hq
    · intro k q hkq
      obtain ⟨h1, h2⟩ := p2 k q hkq
      exact ⟨by rw [List.length_set]; exact h1, h2⟩
  obtain ⟨sI, sA, sL1, sL2, sM⟩ := swim_inv
    (show rpos < (rh.set rpos (hget s.heap top)).length by
      rw [List.length_set]; exact hap)
    hinv2
  refine ⟨sI, ?_, ?_, ?_, sM⟩
  · intro k
    rw [sA k]
    simp only [assocOf]
    by_cases hke : k = (hget s.heap top).dkey
    · subst hke
      rw [p6.1, hinv.1 top hl]
      simp only [Option.map_some']
      rw [p6.2]
    · rw [p5 k hke, d7 k hke]
  · rw [sL1, List.length_set, hlen]
  · rw [sL2, p4, d6]

/-- The repair block keeps the index invariant, every key's association, and
the sizes. -/
theorem repair_inv {s : PQDict K P} {pos : Nat} (hl : pos < s.heap.length)
    (hinv : Inv s) :
    Inv (repair s pos) ∧
    (∀ k, assocOf (repair s pos) k = assocOf s k) ∧
    (repair s pos).heap.length = s.heap.length ∧
    (repair s pos).nodefinder.length = s.nodefinder.length ∧
    (repair s pos).maxpq = s.maxpq := by
  rw [repair]
  by_cases h1 : (parentIdx pos > 0 &&
      entryLT s.maxpq (hget s.heap pos) (hget s.heap (parentIdx pos))) = true
  · simp only [if_pos h1]
    exact swim_inv hl hinv
  · simp only [if_neg h1]
    by_cases h2 : 2 * pos + 1 < s.heap.length
    · simp only [if_pos h2]
      by_cases h3 : entryLT s.maxpq
          (hget s.heap (pickChild s.maxpq s.heap (2 * pos + 1))) (hget s.heap pos) = true
      · simp only [if_pos h3]
        exact sink_inv hl hinv
      · simp only [if_neg h3]
        exact ⟨hinv, fun k => trivial, trivial, trivial, trivial⟩
    · simp only [if_neg h2]
      exact ⟨hinv, fun k => trivial, trivial, trivial, trivial⟩

/-! ### Removing a key: the two shapes shared by `__delitem__`, `pop`, `popitem` -/

theorem mem_dictPop_subset {d : Finder K} {k : K} {kv : K × Nat}
    (h : kv ∈ dictPop d k) : kv ∈ d := by
  induction d with
  | nil => simpa [dictPop] using h
  | cons kv' rest ih =>
      by_cases hk : kv'.1 = k
      · simp only [dictPop, if_pos hk] at h
        exact List.mem_cons_of_mem kv' h
      · simp only [dictPop, if_neg hk] at h
        rcases List.mem_cons.1 h with he | hm
        · exact List.mem_cons.2 (Or.inl he)
        · exact List.mem_cons_of_mem kv' (ih hm)

theorem ne_of_mem_dictPop {d : Finder K} {k : K} {kv : K × Nat}
    (hnd : keysNodup d) (h : kv ∈ dictPop d k) : kv.1 ≠ k := by
  intro he
  subst he
  have h1 : dictGet (dictPop d kv.1) kv.1 = some kv.2 :=
    dictGet_of_mem_nodup (keysNodup_dictPop d kv.1 hnd) h
  rw [dictGet_dictPop_self d kv.1 hnd] at h1
  exact Option.noConfusion h1

/-- Deleting the key that lives at the last heap position: drop the last entry
and the binding. -/
theorem drop_last_inv {s : PQDict K P} {k0 : K} (hinv : Inv s)
    (hg : dictGet s.nodefinder k0 = some (s.heap.length - 1))
    (hpos0 : 0 < s.heap.length) :
    Inv ⟨s.maxpq, s.heap.dropLast, dictPop s.nodefinder k0⟩ ∧
    (∀ k', k' ≠ k0 →
      assocOf ⟨s.maxpq, s.heap.dropLast, dictPop s.nodefinder k0⟩ k' = assocOf s k') ∧
    dictGet (dictPop s.nodefinder k0) k0 = none ∧
    s.heap.dropLast.length + 1 = s.heap.length ∧
    (dictPop s.nodefinder k0).length + 1 = s.nodefinder.length := by
  obtain ⟨hll, hld⟩ := inv_bij2 hinv k0 (s.heap.length - 1) hg
  have hdlen : s.heap.dropLast.length = s.heap.length - 1 := List.length_dropLast s.heap
  refine ⟨?_, ?_, dictGet_dictPop_self s.nodefinder k0 hinv.2.2, by omega,
    length_dictPop_present s.nodefinder k0 (by rw [hg]; rfl)⟩
  · refine inv_of_bij ?_ ?_ (keysNodup_dictPop s.nodefinder k0 hinv.2.2)
    · intro q hq
      rw [hdlen] at hq
      rw [hget_dropLast s.heap hq]
      have hkey : (hget s.heap q).dkey ≠ k0 := by
        rw [← hld]
        exact inv_nodupIdx hinv q (s.heap.length - 1) (by omega) (by omega) (by omega)
      rw [dictGet_dictPop_ne s.nodefinder (fun he => hkey he.symm)]
      exact hinv.1 q (by omega)
    · intro k q hkq
      have hkk0 : k ≠ k0 := by
        intro he
        subst he
        rw [dictGet_dictPop_self s.nodefinder k hinv.2.2] at hkq
        exact Option.noConfusion hkq
      rw [dictGet_dictPop_ne s.nodefinder (fun he => hkk0 he.symm)] at hkq
      obtain ⟨hql, hqd⟩ := inv_bij2 hinv k q hkq
      have hqne : q ≠ s.heap.length - 1 := by
        intro he
        subst he
        exact hkk0 (by rw [← hqd, hld])
      refine ⟨by rw [hdlen]; omega, ?_⟩
      rw [hget_dropLast s.heap (by omega)]
      exact hqd
  · intro k' hk'
    simp only [assocOf]
    rw [dictGet_dictPop_ne s.nodefinder (fun he => hk' he.symm)]
    cases hgk : dictGet s.nodefinder k' with
    | none => simp
    | some q =>
        obtain ⟨hql, hqd⟩ := inv_bij2 hinv k' q hgk
        have hqne : q ≠ s.heap.length - 1 := by
          intro he
          subst he
          exact hk' (by rw [← hqd, hld])
        simp only [Option.map_some']
        rw [hget_dropLast s.heap (by omega)]

/-- Deleting a key that does not live at the last position: move the popped
last entry into its slot and rebind it. -/
theorem extract_state_inv {s : PQDict K P} {k0 : K} {pos : Nat} (hinv : Inv s)
    (hg : dictGet s.nodefinder k0 = some pos) (hne : pos ≠ s.heap.length - 1) :
    Inv ⟨s.maxpq, s.heap.dropLast.set pos (hget s.heap (s.heap.length - 1)),
      dictSet (dictPop s.nodefinder k0) (hget s.heap (s.heap.length - 1)).dkey pos⟩ ∧
    (∀ k', k' ≠ k0 →
      assocOf ⟨s.maxpq, s.heap.dropLast.set pos (hget s.heap (s.heap.length - 1)),
        dictSet (dictPop s.nodefinder k0) (hget s.heap (s.heap.length - 1)).dkey pos⟩ k' =
      assocOf s k') ∧
    dictGet (dictSet (dictPop s.nodefinder k0)
      (hget s.heap (s.heap.length - 1)).dkey pos) k0 = none ∧
    (s.heap.dropLast.set pos (hget s.heap (s.heap.length - 1))).length + 1 =
      s.heap.length ∧
    (dictSet (dictPop s.nodefinder k0)
      (hget s.heap (s.heap.length - 1)).dkey pos).length + 1 =
      s.nodefinder.length ∧
    pos < (s.heap.dropLast.set pos (hget s.heap (s.heap.length - 1))).length := by
  obtain ⟨hpl, hpd⟩ := inv_bij2 hinv k0 pos hg
  have hdlen : s.heap.dropLast.length = s.heap.length - 1 := List.length_dropLast s.heap
  have hposlt : pos < s.heap.length - 1 := by omega
  have hlen2 : 2 ≤ s.heap.length := by omega
  have hlastl : s.heap.length - 1 < s.heap.length := by omega
  have hlast_ne : (hget s.heap (s.heap.length - 1)).dkey ≠ k0 := by
    rw [← hpd]
    exact inv_nodupIdx hinv (s.heap.length - 1) pos hlastl hpl (by omega)
  have hlast_bind : dictGet (dictPop s.nodefinder k0)
      (hget s.heap (s.heap.length - 1)).dkey = some (s.heap.length - 1) := by
    rw [dictGet_dictPop_ne s.nodefinder (fun he => hlast_ne he.symm)]
    exact hinv.1 (s.heap.length - 1) hlastl
  have hslen : (s.heap.dropLast.set pos (hget s.heap (s.heap.length - 1))).length =
      s.heap.length - 1 := by
    rw [List.length_set, hdlen]
  have hval : ∀ q, q < s.heap.length - 1 → q ≠ pos →
      hget (s.heap.dropLast.set pos (hget s.heap (s.heap.length - 1))) q =
      hget s.heap q := by
    intro q hq hqp
    rw [hget_set_ne (fun he => hqp he.symm)]
    exact hget_dropLast s.heap hq
  have hvalp : hget (s.heap.dropLast.set pos (hget s.heap (s.heap.length - 1))) pos =
      hget s.heap (s.heap.length - 1) :=
    hget_set_self (by rw [hdlen]; omega)
  refine ⟨?_, ?_, ?_, by omega, ?_, by rw [hslen]; omega⟩
  · refine inv_of_bij ?_ ?_
      (keysNodup_dictSet _ _ pos (keysNodup_dictPop s.nodefinder k0 hinv.2.2))
    · intro q hq
      rw [hslen] at hq
      by_cases hqp : q = pos
      · subst hqp
        rw [hvalp, dictGet_dictSet_self]
      · rw [hval q hq hqp]
        have hk1 : (hget s.heap q).dkey ≠ (hget s.heap (s.heap.length - 1)).dkey :=
          inv_nodupIdx hinv q (s.heap.length - 1) (by omega) hlastl (by omega)
        have hk2 : (hget s.heap q).dkey ≠ k0 := by
          rw [← hpd]
          exact inv_nodupIdx hinv q pos (by omega) hpl hqp
        rw [dictGet_dictSet_ne _ pos (fun he => hk1 he.symm),
          dictGet_dictPop_ne s.nodefinder (fun he => hk2 he.symm)]
        exact hinv.1 q (by omega)
    · intro k q hkq
      by_cases hkl : k = (hget s.heap (s.heap.length - 1)).dkey
      · subst hkl
        rw [dictGet_dictSet_self] at hkq
        have : q = pos := (Option.some.inj hkq).symm
        subst this
        exact ⟨by rw [hslen]; omega, by rw [hvalp]⟩
      · rw [dictGet_dictSet_ne _ pos (fun he => hkl he.symm)] at hkq
        have hkk0 : k ≠ k0 := by
          intro he
          subst he
          rw [dictGet_dictPop_self s.nodefinder k hinv.2.2] at hkq
          exact Option.noConfusion hkq
        rw [dictGet_dictPop_ne s.nodefinder (fun he => hkk0 he.symm)] at hkq
        obtain ⟨hql, hqd⟩ := inv_bij2 hinv k q hkq
        have hq1 : q ≠ s.heap.length - 1 := by
          intro he
          subst he
          exact hkl hqd.symm
        have hq2 : q ≠ pos := by
          intro he
          subst he
          exact hkk0 (by rw [← hqd, hpd])
        refine ⟨by rw [hslen]; omega, ?_⟩
        rw [hval q (by omega) hq2]
        exact hqd
  · intro k' hk'
    simp only [assocOf]
    by_cases hkl : k' = (hget s.heap (s.heap.length - 1)).dkey
    · subst hkl
      rw [dictGet_dictSet_self, hinv.1 (s.heap.length - 1) hlastl]
      simp only [Option.map_some']
      rw [hvalp]
    · rw [dictGet_dictSet_ne _ pos (fun he => hkl he.symm),
        dictGet_dictPop_ne s.nodefinder (fun he => hk' he.symm)]
      cases hgk : dictGet s.nodefinder k' with
      | none => simp
      | some q =>
          obtain ⟨hql, hqd⟩ := inv_bij2 hinv k' q hgk
          have hq1 : q ≠ s.heap.length - 1 := by
            intro he
            subst he
            exact hkl hqd.symm
          have hq2 : q ≠ pos := by
            intro he
            subst he
            exact hk' (by rw [← hqd, hpd])
          simp only [Option.map_some']
          rw [hval q (by omega) hq2]
  · rw [dictGet_dictSet_ne _ pos hlast_ne]
    exact dictGet_dictPop_self s.nodefinder k0 hinv.2.2
  · rw [length_dictSet_present _ _ pos (by rw [hlast_bind]; rfl)]
    exact length_dictPop_present s.nodefinder k0 (by rw [hg]; rfl)

/-- Full specification of `__delitem__` on a consistent state. -/
theorem delitem_inv {s : PQDict K P} {k : K} (hinv : Inv s) :
    (delitem s k = none ↔ dictGet s.nodefinder k = none) ∧
    (∀ s', delitem s k = some s' →
      Inv s' ∧ dictGet s'.nodefinder k = none ∧
      (∀ k', k' ≠ k → assocOf s' k' = assocOf s k') ∧
      s'.heap.length + 1 = s.heap.length ∧
      s'.nodefinder.length + 1 = s.nodefinder.length ∧
      s'.maxpq = s.maxpq) := by
  cases hg : dictGet s.nodefinder k with
  | none =>
      constructor
      · simp [delitem, hg]
      · intro s' hs'
        simp [delitem, hg] at hs'
  | some pos =>
      obtain ⟨hpl, hpd⟩ := inv_bij2 hinv k pos hg
      constructor
      · simp only [delitem, hg]
        by_cases hpe : pos = s.heap.length - 1 <;> simp [hpe]
      · intro s' hs'
        simp only [delitem, hg] at hs'
        by_cases hpe : pos = s.heap.length - 1
        · rw [if_pos hpe] at hs'
          have heq := Option.some.inj hs'
          subst heq
          obtain ⟨D1, D2, D3, D4, D5⟩ := drop_last_inv hinv (by rw [hg, hpe]) (by omega)
          exact ⟨D1, D3, D2, D4, D5, rfl⟩
        · rw [if_neg hpe] at hs'
          have heq := Option.some.inj hs'
          subst heq
          obtain ⟨E1, E2, E3, E4, E5, E6⟩ := extract_state_inv hinv hg hpe
          obtain ⟨R1, R2, R3, R4, R5⟩ := repair_inv E6 E1
          refine ⟨R1, ?_, ?_, ?_, ?_, R5⟩
          · have hnone := R2 k
            simp only [assocOf, E3, Option.map_none'] at hnone
            exact Option.map_eq_none'.1 hnone
          · intro k' hk'
            rw [R2 k']
            exact E2 k' hk'
          · rw [R3]
            exact E4
          · rw [R4]
            exact E5

/-- `pop(dkey, default)` is `__delitem__` plus returning the old binding. -/
theorem pop_eq_delitem (s : PQDict K P) (k : K) (d : Option P) :
    pop s k d = match delitem s k, getitem s k, d with
      | some s', some v, _ => .ok (v, s')
      | some _, none, _ => .error ()
      | none, _, none => .error ()
      | none, _, some dv => .ok (dv, s) := by
  cases hg : dictGet s.nodefinder k with
  | none => cases d <;> simp [pop, delitem, getitem, hg]
  | some pos =>
      by_cases hpe : pos = s.heap.length - 1 <;>
        simp [pop, delitem, getitem, hg, hpe]

/-! ### Popping the stale root binding commutes with the repair loops -/

theorem swimLoop_finder_comm (mx : Bool) (e : Entry K P) (top : Nat) (k0 : K) :
    ∀ (fuel : Nat) (h : List (Entry K P)) (f : Finder K) (pos : Nat),
      pos < h.length →
      (∀ q, q < h.length → (hget (h.set pos e) q).dkey ≠ k0) →
      (swimLoop mx e top h (dictPop f k0) pos fuel).1 =
        (swimLoop mx e top h f pos fuel).1 ∧
      (swimLoop mx e top h (dictPop f k0) pos fuel).2 =
        dictPop (swimLoop mx e top h f pos fuel).2 k0 := by
  intro fuel
  induction fuel with
  | zero =>
      intro h f pos hl hkey
      have he : e.dkey ≠ k0 := by
        have := hkey pos hl
        rwa [hget_set_self hl] at this
      simp only [swimLoop]
      exact ⟨trivial, (dictPop_dictSet_comm f pos he).symm⟩
  | succ fl ih =>
      intro h f pos hl hkey
      have he : e.dkey ≠ k0 := by
        have := hkey pos hl
        rwa [hget_set_self hl] at this
      by_cases hlt : top < pos
      · by_cases hcmp : entryLT mx e (hget h (parentIdx pos)) = true
        · simp only [swimLoop, if_pos hlt, if_pos hcmp]
          have h0 : 0 < pos := by omega
          have hplt := parentIdx_lt h0
          have hpkey : (hget h (parentIdx pos)).dkey ≠ k0 := by
            have := hkey (parentIdx pos) (by omega)
            rwa [hget_set_ne (show pos ≠ parentIdx pos by omega)] at this
          have hkey1 : ∀ q, q < (h.set pos (hget h (parentIdx pos))).length →
              (hget ((h.set pos (hget h (parentIdx pos))).set (parentIdx pos) e) q).dkey
                ≠ k0 := by
            intro q hq
            rw [List.length_set] at hq
            by_cases hq1 : q = parentIdx pos
            · subst hq1
              rw [hget_set_self (by rw [List.length_set]; omega)]
              exact he
            · rw [hget_set_ne (fun hh => hq1 hh.symm)]
              by_cases hq2 : q = pos
              · subst hq2
                rw [hget_set_self hl]
                exact hpkey
              · rw [hget_set_ne (fun hh => hq2 hh.symm)]
                have := hkey q hq
                rwa [hget_set_ne (fun hh => hq2 hh.symm)] at this
          obtain ⟨ih1, ih2⟩ := ih (h.set pos (hget h (parentIdx pos)))
            (dictSet f (hget h (parentIdx pos)).dkey pos) (parentIdx pos)
            (by rw [List.length_set]; omega) hkey1
          constructor
          · rw [← dictPop_dictSet_comm f pos hpkey]
            exact ih1
          · rw [← dictPop_dictSet_comm f pos hpkey]
            exact ih2
        · simp only [swimLoop, if_pos hlt, if_neg hcmp]
          exact ⟨trivial, (dictPop_dictSet_comm f pos he).symm⟩
      · simp only [swimLoop, if_neg hlt]
        exact ⟨trivial, (dictPop_dictSet_comm f pos he).symm⟩

theorem sinkLoop_finder_comm (mx : Bool) (k0 : K) :
    ∀ (fuel : Nat) (h : List (Entry K P)) (f : Finder K) (pos : Nat),
      pos < h.length →
      (∀ q, q < h.length → (hget h q).dkey ≠ k0) →
      (sinkLoop mx h (dictPop f k0) pos fuel).1 = (sinkLoop mx h f pos fuel).1 ∧
      (sinkLoop mx h (dictPop f k0) pos fuel).2.1 =
        dictPop (sinkLoop mx h f pos fuel).2.1 k0 ∧
      (sinkLoop mx h (dictPop f k0) pos fuel).2.2 = (sinkLoop mx h f pos fuel).2.2 := by
  intro fuel
  induction fuel with
  | zero =>
      intro h f pos hl hkey
      simp only [sinkLoop]
      exact ⟨trivial, trivial, trivial⟩
  | succ fl ih =>
      intro h f pos hl hkey
      by_cases hchild : 2 * pos + 1 < h.length
      · simp only [sinkLoop, if_pos hchild]
        have hcl : pickChild mx h (2 * pos + 1) < h.length := by
          rcases pickChild_cases mx h (2 * pos + 1) with hc | ⟨hc, hcb⟩ <;> omega
        have hckey : (hget h (pickChild mx h (2 * pos + 1))).dkey ≠ k0 :=
          hkey _ hcl
        have hkey1 : ∀ q, q < (h.set pos (hget h (pickChild mx h (2 * pos + 1)))).length →
            (hget (h.set pos (hget h (pickChild mx h (2 * pos + 1)))) q).dkey ≠ k0 := by
          intro q hq
          rw [List.length_set] at hq
          by_cases hqp : q = pos
          · subst hqp
            rw [hget_set_self hl]
            exact hckey
          · rw [hget_set_ne (fun hh => hqp hh.symm)]
            exact hkey q hq
        obtain ⟨ih1, ih2, ih3⟩ := ih (h.set pos (hget h (pickChild mx h (2 * pos + 1))))
          (dictSet f (hget h (pickChild mx h (2 * pos + 1))).dkey pos)
          (pickChild mx h (2 * pos + 1)) (by rw [List.length_set]; omega) hkey1
        refine ⟨?_, ?_, ?_⟩
        · rw [← dictPop_dictSet_comm f pos hckey]
          exact ih1
        · rw [← dictPop_dictSet_comm f pos hckey]
          exact ih2
        · rw [← dictPop_dictSet_comm f pos hckey]
          exact ih3
      · simp only [sinkLoop, if_neg hchild]
        exact ⟨trivial, trivial, trivial⟩

/-- `dict.pop` of a key that occurs nowhere in the heap commutes with `_sink`. -/
theorem sink_comm {mx : Bool} {h : List (Entry K P)} {f : Finder K} {top : Nat}
    {k0 : K} (hl : top < h.length)
    (hkey : ∀ q, q < h.length → (hget h q).dkey ≠ k0) :
    (sink ⟨mx, h, dictPop f k0⟩ top).heap = (sink ⟨mx, h, f⟩ top).heap ∧
    (sink ⟨mx, h, dictPop f k0⟩ top).nodefinder =
      dictPop (sink ⟨mx, h, f⟩ top).nodefinder k0 := by
  obtain ⟨c1, c2, c3⟩ := sinkLoop_finder_comm mx k0 h.length h f top hl hkey
  have hb := sinkLoop_pos_bound mx h.length h f top hl
  have hlen := sinkLoop_heap_length mx h.length h f top
  have he : (hget h top).dkey ≠ k0 := hkey top hl
  have hmem := sinkLoop_mem mx h.length h f top hl
  simp only [sink, swim]
  rw [c1, c2, c3]
  rw [← dictPop_dictSet_comm _ _ he]
  have hsetlen : ((sinkLoop mx h f top h.length).1.set
      (sinkLoop mx h f top h.length).2.2 (hget h top)).length = h.length := by
    rw [List.length_set, hlen]
  have hkey2 : ∀ q, q < ((sinkLoop mx h f top h.length).1.set
      (sinkLoop mx h f top h.length).2.2 (hget h top)).length →
      (hget (((sinkLoop mx h f top h.length).1.set
          (sinkLoop mx h f top h.length).2.2 (hget h top)).set
        (sinkLoop mx h f top h.length).2.2
          (hget ((sinkLoop mx h f top h.length).1.set
            (sinkLoop mx h f top h.length).2.2 (hget h top))
            (sinkLoop mx h f top h.length).2.2)) q).dkey ≠ k0 := by
    intro q hq
    rw [List.length_set, hlen] at hq
    rw [List.set_set]
    by_cases hqp : q = (sinkLoop mx h f top h.length).2.2
    · subst hqp
      rw [hget_set_self (by rw [hlen]; exact hb.2)]
      rw [hget_set_self (by rw [hlen]; exact hb.2)]
      exact he
    · rw [hget_set_ne (fun hh => hqp hh.symm)]
      obtain ⟨r, hr, hv⟩ := hmem q (by omega)
      rw [hv]
      exact hkey r hr
  obtain ⟨w1, w2⟩ := swimLoop_finder_comm mx
    (hget ((sinkLoop mx h f top h.length).1.set
      (sinkLoop mx h f top h.length).2.2 (hget h top))
      (sinkLoop mx h f top h.length).2.2) top k0
    ((sinkLoop mx h f top h.length).2.2 + 1)
    ((sinkLoop mx h f top h.length).1.set
      (sinkLoop mx h f top h.length).2.2 (hget h top))
    (dictSet (sinkLoop mx h f top h.length).2.1 (hget h top).dkey
      (sinkLoop mx h f top h.length).2.2)
    (sinkLoop mx h f top h.length).2.2
    (by rw [hsetlen]; exact hb.2) hkey2
  exact ⟨w1, w2⟩

theorem PQDict.ext2 {a b : PQDict K P} (h1 : a.maxpq = b.maxpq)
    (h2 : a.heap = b.heap) (h3 : a.nodefinder = b.nodefinder) : a = b := by
  cases a
  cases b
  simp_all

/-- Full specification of `popitem()` on a consistent state: it fails exactly
on the empty queue and otherwise removes the root entry and returns it. -/
theorem popitem_inv {s : PQDict K P} (hinv : Inv s) :
    (popitem s = none ↔ s.heap = []) ∧
    (∀ r s', popitem s = some (r, s') →
      r = ((hget s.heap 0).dkey, (hget s.heap 0).pkey) ∧
      Inv s' ∧
      dictGet s'.nodefinder (hget s.heap 0).dkey = none ∧
      (∀ k', k' ≠ (hget s.heap 0).dkey → assocOf s' k' = assocOf s k') ∧
      s'.heap.length + 1 = s.heap.length ∧
      s'.nodefinder.length + 1 = s.nodefinder.length ∧
      s'.maxpq = s.maxpq) := by
  by_cases hne : s.heap = []
  · constructor
    · simp [popitem, hne]
    · intro r s' hs'
      simp [popitem, hne] at hs'
  · have hpos0 : 0 < s.heap.length := List.length_pos.2 hne
    have hlast : s.heap.getLast? = some (hget s.heap (s.heap.length - 1)) := by
      rw [List.getLast?_eq_getLast s.heap hne, hget_getLast]
    constructor
    · simp only [popitem, hlast]
      by_cases h1 : s.heap.dropLast.isEmpty = true <;> simp [h1, hne]
    · intro r s' hs'
      simp only [popitem, hlast] at hs'
      by_cases h1 : s.heap.dropLast.isEmpty = true
      · rw [if_pos h1] at hs'
        have hdl0 : s.heap.dropLast.length = 0 := by
          cases hdl : s.heap.dropLast with
          | nil => simp
          | cons a t => rw [hdl] at h1; simp at h1
        have hlen1 : s.heap.length = 1 := by
          rw [List.length_dropLast] at hdl0
          omega
        have h10 : s.heap.length - 1 = 0 := by omega
        rw [h10] at hs'
        simp only [Option.some.injEq, Prod.mk.injEq] at hs'
        obtain ⟨hr, hst⟩ := hs'
        obtain ⟨D1, D2, D3, D4, D5⟩ := drop_last_inv hinv
          (by rw [h10]; exact hinv.1 0 hpos0) hpos0
        subst hst
        refine ⟨hr.symm, D1, D3, D2, D4, D5, rfl⟩
      · rw [if_neg h1] at hs'
        have hdl : s.heap.dropLast ≠ [] := by
          intro hE
          rw [hE] at h1
          simp at h1
        have hdlpos : 0 < s.heap.dropLast.length := List.length_pos.2 hdl
        have hlen2 : 2 ≤ s.heap.length := by
          rw [List.length_dropLast] at hdlpos
          omega
        have h0l : 0 < s.heap.length - 1 := by omega
        rw [hget_dropLast s.heap h0l] at hs'
        simp only [Option.some.injEq, Prod.mk.injEq] at hs'
        obtain ⟨hr, hst⟩ := hs'
        have hk10 : (hget s.heap (s.heap.length - 1)).dkey ≠ (hget s.heap 0).dkey :=
          inv_nodupIdx hinv (s.heap.length - 1) 0 (by omega) hpos0 (by omega)
        obtain ⟨E1, E2, E3, E4, E5, E6⟩ := extract_state_inv hinv
          (hinv.1 0 hpos0) (by omega)
        obtain ⟨SI, SA, SL1, SL2, SM⟩ := sink_inv E6 E1
        have hcomm : dictPop (dictSet s.nodefinder
              (hget s.heap (s.heap.length - 1)).dkey 0) (hget s.heap 0).dkey =
            dictSet (dictPop s.nodefinder (hget s.heap 0).dkey)
              (hget s.heap (s.heap.length - 1)).dkey 0 :=
          dictPop_dictSet_comm s.nodefinder 0 hk10
        have hHl : 0 < (s.heap.dropLast.set 0 (hget s.heap (s.heap.length - 1))).length := by
          rw [List.length_set]
          exact hdlpos
        have hkey : ∀ q, q < (s.heap.dropLast.set 0
              (hget s.heap (s.heap.length - 1))).length →
            (hget (s.heap.dropLast.set 0 (hget s.heap (s.heap.length - 1))) q).dkey ≠
              (hget s.heap 0).dkey := by
          intro q hq
          rw [List.length_set, List.length_dropLast] at hq
          by_cases hq0 : q = 0
          · subst hq0
            rw [hget_set_self hdlpos]
            exact hk10
          · rw [hget_set_ne (fun hh => hq0 hh.symm)]
            rw [hget_dropLast s.heap (by omega)]
            exact inv_nodupIdx hinv q 0 (by omega) hpos0 hq0
        obtain ⟨C1, C2⟩ := @sink_comm K P _ _ _ _ s.maxpq
          (s.heap.dropLast.set 0 (hget s.heap (s.heap.length - 1)))
          (dictSet s.nodefinder (hget s.heap (s.heap.length - 1)).dkey 0)
          0 (hget s.heap 0).dkey hHl hkey
        have hstate : s' = sink (⟨s.maxpq,
            s.heap.dropLast.set 0 (hget s.heap (s.heap.length - 1)),
            dictPop (dictSet s.nodefinder (hget s.heap (s.heap.length - 1)).dkey 0)
              (hget s.heap 0).dkey⟩ : PQDict K P) 0 := by
          rw [← hst]
          exact PQDict.ext2 rfl C1.symm C2.symm
        have hseq : s' = sink (⟨s.maxpq,
            s.heap.dropLast.set 0 (hget s.heap (s.heap.length - 1)),
            dictSet (dictPop s.nodefinder (hget s.heap 0).dkey)
              (hget s.heap (s.heap.length - 1)).dkey 0⟩ : PQDict K P) 0 := by
          rw [hstate, hcomm]
        refine ⟨hr.symm, ?_, ?_, ?_, ?_, ?_, ?_⟩
        · rw [hseq]
          exact SI
        · rw [hseq]
          have hnone := SA (hget s.heap 0).dkey
          simp only [assocOf, E3, Option.map_none'] at hnone
          exact Option.map_eq_none'.1 hnone
        · intro k' hk'
          rw [hseq, SA k']
          exact E2 k' hk'
        · rw [hseq, SL1]
          exact E4
        · rw [hseq, SL2]
          exact E5
        · rw [hseq, SM]

/-- Full specification of `__setitem__` on a consistent state: both branches
keep the invariant and bind exactly the written key to the written priority. -/
theorem setitem_inv {s : PQDict K P} {k : K} {p : P} (hinv : Inv s) :
    Inv (setitem s k p) ∧
    assocOf (setitem s k p) k = some ⟨k, p⟩ ∧
    (∀ k', k' ≠ k → assocOf (setitem s k p) k' = assocOf s k') ∧
    (setitem s k p).maxpq = s.maxpq ∧
    (dictGet s.nodefinder k = none →
      (setitem s k p).heap.length = s.heap.length + 1 ∧
      (setitem s k p).nodefinder.length = s.nodefinder.length + 1) ∧
    ((dictGet s.nodefinder k).isSome →
      (setitem s k p).heap.length = s.heap.length ∧
      (setitem s k p).nodefinder.length = s.nodefinder.length) := by
  cases hg : dictGet s.nodefinder k with
  | none =>
      have hlen : (s.heap ++ [(⟨k, p⟩ : Entry K P)]).length = s.heap.length + 1 := by
        simp
      have happ := hget_append_self s.heap (⟨k, p⟩ : Entry K P)
      have hinv1 : Inv (⟨s.maxpq, s.heap ++ [⟨k, p⟩],
          dictSet s.nodefinder k s.heap.length⟩ : PQDict K P) := by
        refine inv_of_bij ?_ ?_ (keysNodup_dictSet s.nodefinder k s.heap.length hinv.2.2)
        · intro q hq
          simp only [hlen] at hq
          by_cases hqn : q = s.heap.length
          · subst hqn
            rw [happ, dictGet_dictSet_self]
          · have hq' : q < s.heap.length := by omega
            rw [hget_append_lt s.heap _ hq']
            have hne : k ≠ (hget s.heap q).dkey := by
              intro he
              have := hinv.1 q hq'
              rw [← he, hg] at this
              exact Option.noConfusion this
            rw [dictGet_dictSet_ne s.nodefinder s.heap.length hne]
            exact hinv.1 q hq'
        · intro k' q hk'
          by_cases hke : k' = k
          · subst hke
            rw [dictGet_dictSet_self] at hk'
            have hq := Option.some.inj hk'
            subst hq
            refine ⟨by simp, by rw [happ]⟩
          · rw [dictGet_dictSet_ne s.nodefinder s.heap.length
              (fun he => hke he.symm)] at hk'
            obtain ⟨hq1, hq2⟩ := inv_bij2 hinv k' q hk'
            refine ⟨by simp; omega, by rw [hget_append_lt s.heap _ hq1]; exact hq2⟩
      obtain ⟨W1, W2, W3, W4, W5⟩ := swim_inv (show s.heap.length <
          ((⟨s.maxpq, s.heap ++ [⟨k, p⟩], dictSet s.nodefinder k s.heap.length⟩ :
            PQDict K P)).heap.length by simp) hinv1
      simp only [setitem, hg]
      refine ⟨W1, ?_, ?_, W5, ?_, ?_⟩
      · rw [W2 k]
        simp only [assocOf, dictGet_dictSet_self, Option.map_some']
        rw [happ]
      · intro k' hk'
        rw [W2 k']
        simp only [assocOf]
        rw [dictGet_dictSet_ne s.nodefinder s.heap.length (fun he => hk' he.symm)]
        cases hgk : dictGet s.nodefinder k' with
        | none => simp
        | some q =>
            obtain ⟨hq1, hq2⟩ := inv_bij2 hinv k' q hgk
            simp only [Option.map_some']
            rw [hget_append_lt s.heap _ hq1]
      · intro _
        constructor
        · rw [W3]
          simp
        · rw [W4]
          exact length_dictSet_absent s.nodefinder k s.heap.length hg
      · intro hs
        simp at hs
  | some pos =>
      obtain ⟨hpl, hpd⟩ := inv_bij2 hinv k pos hg
      have hdk : ∀ q, q < s.heap.length →
          (hget (s.heap.set pos { hget s.heap pos with pkey := p }) q).dkey =
            (hget s.heap q).dkey := by
        intro q hq
        by_cases hqp : q = pos
        · subst hqp
          rw [hget_set_self hq]
        · rw [hget_set_ne (fun he => hqp he.symm)]
      have hinv2 : Inv (⟨s.maxpq, s.heap.set pos { hget s.heap pos with pkey := p },
          s.nodefinder⟩ : PQDict K P) := by
        refine inv_of_bij ?_ ?_ hinv.2.2
        · intro q hq
          simp only [List.length_set] at hq
          rw [hdk q hq]
          exact hinv.1 q hq
        · intro k' q hk'
          obtain ⟨hq1, hq2⟩ := inv_bij2 hinv k' q hk'
          refine ⟨by rw [List.length_set]; exact hq1, by rw [hdk q hq1]; exact hq2⟩
      obtain ⟨R1, R2, R3, R4, R5⟩ := repair_inv (show pos <
          ((⟨s.maxpq, s.heap.set pos { hget s.heap pos with pkey := p },
            s.nodefinder⟩ : PQDict K P)).heap.length by
          simp only [List.length_set]; exact hpl) hinv2
      simp only [setitem, hg]
      refine ⟨R1, ?_, ?_, R5, ?_, ?_⟩
      · rw [R2 k]
        simp only [assocOf, hg, Option.map_some']
        rw [hget_set_self hpl, ← hpd]
      · intro k' hk'
        rw [R2 k']
        simp only [assocOf]
        cases hgk : dictGet s.nodefinder k' with
        | none => simp
        | some q =>
            obtain ⟨hq1, hq2⟩ := inv_bij2 hinv k' q hgk
            have hqp : q ≠ pos := by
              intro he
              subst he
              rw [hq2] at hpd
              exact hk' hpd
            simp only [Option.map_some']
            rw [hget_set_ne (fun he => hqp he.symm)]
      · intro habs
        exact Option.noConfusion habs
      · intro _
        refine ⟨by rw [R3]; simp, by rw [R4]⟩

theorem isSome_assocOf (s : PQDict K P) (k : K) :
    (assocOf s k).isSome = (dictGet s.nodefinder k).isSome := by
  cases hgk : dictGet s.nodefinder k <;> simp [assocOf, hgk]

theorem getitem_eq_of_assocOf {s : PQDict K P} {k : K} {e : Entry K P}
    (h : assocOf s k = some e) : getitem s k = some e.pkey := by
  simp only [assocOf] at h
  cases hgk : dictGet s.nodefinder k with
  | none => rw [hgk] at h; simp at h
  | some pos =>
      rw [hgk] at h
      simp only [Option.map_some', Option.some.injEq] at h
      simp only [getitem, hgk, h]

theorem tracks_setitem {s : PQDict K P} {g : K → Option P} (ht : Tracks s g)
    (k : K) (p : P) :
    Tracks (setitem s k p) (fun k' => if k' = k then some p else g k') := by
  obtain ⟨hinv, htr⟩ := ht
  obtain ⟨W1, W2, W3, _, _, _⟩ := @setitem_inv K P _ _ _ _ s k p hinv
  refine ⟨W1, ?_⟩
  intro k' hk'
  by_cases hke : k' = k
  · subst hke
    exact ⟨p, by simp, W2⟩
  · have hso := W3 k' hke
    have hks : (dictGet s.nodefinder k').isSome := by
      rw [← isSome_assocOf, ← hso, isSome_assocOf]
      exact hk'
    obtain ⟨p', hg', ha'⟩ := htr k' hks
    refine ⟨p', ?_, by rw [hso]; exact ha'⟩
    simp only [if_neg hke]
    exact hg'

theorem tracks_removed {s s' : PQDict K P} {g : K → Option P} {k0 : K}
    (ht : Tracks s g) (hinv' : Inv s')
    (habs : dictGet s'.nodefinder k0 = none)
    (hpres : ∀ k', k' ≠ k0 → assocOf s' k' = assocOf s k') :
    Tracks s' g := by
  refine ⟨hinv', ?_⟩
  intro k' hk'
  by_cases hke : k' = k0
  · subst hke
    rw [habs] at hk'
    simp at hk'
  · have hso := hpres k' hke
    have hks : (dictGet s.nodefinder k').isSome := by
      rw [← isSome_assocOf, ← hso, isSome_assocOf]
      exact hk'
    obtain ⟨p', hg', ha'⟩ := ht.2 k' hks
    exact ⟨p', hg', by rw [hso]; exact ha'⟩

theorem runOp_tracks {s : PQDict K P} {g : K → Option P} (ht : Tracks s g)
    (op : Op K P) : Tracks (runOp s op) (ghostOp s g op) := by
  cases op with
  | set k p =>
      simp only [runOp, ghostOp]
      exact tracks_setitem ht k p
  | add k p =>
      by_cases hp : (dictGet s.nodefinder k).isSome
      · simp only [runOp, ghostOp, additem, if_pos hp, Option.getD]
        exact ht
      · simp only [runOp, ghostOp, additem, if_neg hp, Option.getD]
        exact tracks_setitem ht k p
  | upd k p =>
      by_cases hp : (dictGet s.nodefinder k).isSome
      · simp only [runOp, ghostOp, updateitem, if_pos hp, Option.getD]
        exact tracks_setitem ht k p
      · simp only [runOp, ghostOp, updateitem, if_neg hp, Option.getD]
        exact ht
  | del k =>
      simp only [runOp, ghostOp]
      cases hd : delitem s k with
      | none => simpa using ht
      | some s' =>
          obtain ⟨D1, D2, D3, _, _, _⟩ := (delitem_inv ht.1).2 s' hd
          simpa using tracks_removed ht D1 D2 D3
  | poptop =>
      simp only [runOp, ghostOp]
      cases hp : popitem s with
      | none => exact ht
      | some rs =>
          obtain ⟨r, s'⟩ := rs
          obtain ⟨_, P2, P3, P4, _, _, _⟩ := (popitem_inv ht.1).2 r s' hp
          exact tracks_removed ht P2 P3 P4
  | popkey k d =>
      simp only [runOp, ghostOp]
      rw [pop_eq_delitem s k d]
      cases hd : delitem s k with
      | none => cases d <;> exact ht
      | some s' =>
          cases hgi : getitem s k with
          | none => exact ht
          | some v =>
              obtain ⟨D1, D2, D3, _, _, _⟩ := (delitem_inv ht.1).2 s' hd
              exact tracks_removed ht D1 D2 D3

theorem tracks_empty (mx : Bool) :
    Tracks (empty mx : PQDict K P) (fun _ => none) := by
  refine ⟨⟨?_, ?_, ?_⟩, ?_⟩
  · intro q hq
    simp [empty] at hq
  · intro kv hkv
    simp [empty] at hkv
  · simp [empty, keysNodup]
  · intro k hk
    simp [empty, dictGet] at hk

theorem runTrace_tracks (mx : Bool) (ops : List (Op K P)) :
    Tracks (runTrace mx ops).1 (runTrace mx ops).2 := by
  suffices h : ∀ (sg : PQDict K P × (K → Option P)), Tracks sg.1 sg.2 →
      Tracks (ops.foldl (fun sg op => (runOp sg.1 op, ghostOp sg.1 sg.2 op)) sg).1
        (ops.foldl (fun sg op => (runOp sg.1 op, ghostOp sg.1 sg.2 op)) sg).2 by
    exact h (empty mx, fun _ => none) (tracks_empty mx)
  induction ops with
  | nil => intro sg h; exact h
  | cons op rest ih =>
      intro sg h
      exact ih (runOp sg.1 op, ghostOp sg.1 sg.2 op) (runOp_tracks h op)

/-! ### Emptiness -/

theorem size_eq_zero_iff {s : PQDict K P} (hinv : Inv s) :
    size s = 0 ↔ s.heap = [] := by
  constructor
  · intro h0
    cases hh : s.heap with
    | nil => rfl
    | cons e t =>
        have hb := hinv.1 0 (by rw [hh]; simp)
        have hf : s.nodefinder = [] := List.length_eq_zero.1 h0
        rw [hf] at hb
        simp [dictGet] at hb
  · intro hh
    cases hf : s.nodefinder with
    | nil => simp [size, hf]
    | cons kv t =>
        have hb := hinv.2.1 kv (by rw [hf]; simp)
        rw [hh] at hb
        simp at hb

/-- C1: the spec's Scenario B — on a max-ordering queue built from
`{x:5, y:9}`, after `updateItem(x, 20)` the call `peek()` should return
`(x, 20)`.  The code's update branch tests `parent_pos > 0` instead of
`pos > 0`, so the updated entry at position 1 never swims above the root and
`peek()` still returns `(y, 9)`: the claim is refuted. -/
theorem C1_scenarioB_update_peek :
    (updateitem (insertAll true [((0 : Nat), (5 : Int)), (1, 9)]) 0 20).map peek =
      some (some (1, 9)) ∧
    (updateitem (insertAll true [((0 : Nat), (5 : Int)), (1, 9)]) 0 20).map peek ≠
      some (some (0, 20)) := by
  constructor <;> decide

/-- C2: invariant I3 (heap order) should hold after any sequence of public
mutating calls from a fresh instance.  The call sequence
`setPriority(0, 1); setPriority(1, 3); updateItem(1, 0)` on a min-ordering
queue leaves position 1 ranking strictly higher than its parent (the same
`parent_pos > 0` defect): the claim is refuted. -/
theorem C2_invariant_I3 :
    1 < (runTrace false ([.set 0 1, .set 1 3, .upd 1 0] :
        List (Op Nat Int))).1.heap.length ∧
    ¬ rankLE false
      (hget (runTrace false ([.set 0 1, .set 1 3, .upd 1 0] :
        List (Op Nat Int))).1.heap (parentIdx 1))
      (hget (runTrace false ([.set 0 1, .set 1 3, .upd 1 0] :
        List (Op Nat Int))).1.heap 1) := by
  constructor <;> decide

/-- C3: the spec's Scenario E — construction from `[("k",1), ("k",2)]` should
collapse to the last value with one surviving entry.  The code's constructor
appends an entry per pair before heapifying, so `size() = 1` holds but an
orphan entry survives (`len(heap) = 2`) and `getPriority` returns the first
value `1`, not `2`: the claim is refuted. -/
theorem C3_duplicate_construction :
    size (fromPairs false [((0 : Nat), (1 : Int)), (0, 2)]) = 1 ∧
    getitem (fromPairs false [((0 : Nat), (1 : Int)), (0, 2)]) 0 = some 1 ∧
    getitem (fromPairs false [((0 : Nat), (1 : Int)), (0, 2)]) 0 ≠ some 2 ∧
    (fromPairs false [((0 : Nat), (1 : Int)), (0, 2)]).heap.length = 2 := by
  refine ⟨by decide, by decide, by decide, by decide⟩

/-- C4: inserting any pairwise-distinct-key pairs into a fresh queue and
popping until empty yields the priorities in nondecreasing order for a
min-ordering instance and nonincreasing order for max-ordering (`priOrd`),
one pop per inserted pair. -/
theorem C4_sorted_extraction (mx : Bool) (pairs : List (K × P))
    (hnd : (pairs.map Prod.fst).Nodup) :
    List.Pairwise (priOrd mx) ((popAll (insertAll mx pairs)).map Prod.snd) ∧
    (popAll (insertAll mx pairs)).length = pairs.length := by
  obtain ⟨HO, hlen, hmx⟩ := insertAll_fold pairs (empty mx) []
    (by intro i hi h0; simp [empty] at hi)
    (by intro k hk; simp [empty, dictGet] at hk)
    (by intro r hr; simp [empty] at hr)
    (by intro k hk; simp)
    hnd
  obtain ⟨hchain, hmem, hlenr⟩ := popAllAux_sorted
    (pairs.foldl (fun s kp => setitem s kp.1 kp.2) (empty mx)).heap.length
    (pairs.foldl (fun s kp => setitem s kp.1 kp.2) (empty mx)) rfl HO
  rw [hmx] at hchain
  have hchain2 : List.Chain' (fun a b => priOrd mx a.2 b.2)
      (popAllAux (pairs.foldl (fun t kp => setitem t kp.1 kp.2) (empty mx)).heap.length
        (pairs.foldl (fun t kp => setitem t kp.1 kp.2) (empty mx))) := hchain
  have hpair := (@List.chain'_iff_pairwise (K × P) (fun a b => priOrd mx a.2 b.2)
    ⟨fun a b c h1 h2 => priOrd_trans h1 h2⟩ _).1 hchain2
  constructor
  · simp only [popAll, insertAll]
    exact List.pairwise_map.2 hpair
  · simp only [popAll, insertAll]
    rw [hlenr, hlen]
    simp [empty]

theorem C4_sorted_extraction_witness :
    ([((0 : Nat), (3 : Int)), (1, 1), (2, 2)].map Prod.fst).Nodup ∧
    (List.Pairwise (priOrd false)
      ((popAll (insertAll false [((0 : Nat), (3 : Int)), (1, 1), (2, 2)])).map
        Prod.snd) ∧
      (popAll (insertAll false [((0 : Nat), (3 : Int)), (1, 1), (2, 2)])).length =
        [((0 : Nat), (3 : Int)), (1, 1), (2, 2)].length) :=
  ⟨by decide,
    C4_sorted_extraction false [((0 : Nat), (3 : Int)), (1, 1), (2, 2)] (by decide)⟩

/-- C5: after any sequence of public mutating calls from a fresh instance,
every currently present key's `getPriority` equals the priority supplied by
the most recent successful setPriority/addItem/updateItem for that key (held
in the ghost map computed alongside the trace). -/
theorem C5_index_correctness (mx : Bool) (ops : List (Op K P)) (k : K)
    (h : contains (runTrace mx ops).1 k = true) :
    getitem (runTrace mx ops).1 k = (runTrace mx ops).2 k := by
  obtain ⟨hinv, htr⟩ := runTrace_tracks mx ops
  have hks : (dictGet (runTrace mx ops).1.nodefinder k).isSome := h
  obtain ⟨p', hg', ha'⟩ := htr k hks
  rw [hg', getitem_eq_of_assocOf ha']

theorem C5_index_correctness_witness :
    contains (runTrace false ([.set 0 5, .set 1 3, .upd 0 7] :
        List (Op Nat Int))).1 0 = true ∧
    getitem (runTrace false ([.set 0 5, .set 1 3, .upd 0 7] :
        List (Op Nat Int))).1 0 =
      (runTrace false ([.set 0 5, .set 1 3, .upd 0 7] : List (Op Nat Int))).2 0 :=
  ⟨by decide, C5_index_correctness false [.set 0 5, .set 1 3, .upd 0 7] 0 (by decide)⟩

/-- C6: on a consistent state, `popitem()` fails exactly when the queue is
empty, `peek()` fails exactly when the queue is empty, and on a non-empty
queue `peek()` returns the `(key, priority)` pair at heap position 0 (the
model `peek` is a pure function, so no state is mutated). -/
theorem C6_empty_queue_errors {s : PQDict K P} (hinv : Inv s) :
    (popitem s = none ↔ size s = 0) ∧
    (peek s = none ↔ size s = 0) ∧
    (0 < size s →
      peek s = some ((hget s.heap 0).dkey, (hget s.heap 0).pkey)) := by
  have hsz := size_eq_zero_iff hinv
  obtain ⟨hpopiff, _⟩ := popitem_inv hinv
  refine ⟨by rw [hpopiff, hsz], ?_, ?_⟩
  · rw [hsz]
    cases hh : s.heap with
    | nil => simp [peek, hh]
    | cons e t => simp [peek, hh]
  · intro hpos
    cases hh : s.heap with
    | nil => exact absurd (hsz.2 hh) (by omega)
    | cons e t =>
        simp only [peek, hh]
        rfl

theorem C6_empty_queue_errors_witness :
    Inv (insertAll false [((0 : Nat), (1 : Int)), (1, 2)]) ∧
    ((popitem (insertAll false [((0 : Nat), (1 : Int)), (1, 2)]) = none ↔
        size (insertAll false [((0 : Nat), (1 : Int)), (1, 2)]) = 0) ∧
      (peek (insertAll false [((0 : Nat), (1 : Int)), (1, 2)]) = none ↔
        size (insertAll false [((0 : Nat), (1 : Int)), (1, 2)]) = 0) ∧
      (0 < size (insertAll false [((0 : Nat), (1 : Int)), (1, 2)]) →
        peek (insertAll false [((0 : Nat), (1 : Int)), (1, 2)]) =
          some ((hget (insertAll false [((0 : Nat), (1 : Int)), (1, 2)]).heap 0).dkey,
            (hget (insertAll false [((0 : Nat), (1 : Int)), (1, 2)]).heap 0).pkey))) :=
  ⟨by decide, C6_empty_queue_errors (by decide)⟩

/-- C7: on a consistent state, `deleteItem(key)` fails exactly when the key is
absent (the source raises before any mutation), and on success the key is no
longer contained and the size has decreased by exactly one. -/
theorem C7_deleteItem_spec {s : PQDict K P} {k : K} (hinv : Inv s) :
    (delitem s k = none ↔ contains s k = false) ∧
    (∀ s', delitem s k = some s' →
      contains s' k = false ∧ size s' + 1 = size s) := by
  obtain ⟨hiff, hsucc⟩ := delitem_inv hinv
  constructor
  · rw [hiff]
    cases hg : dictGet s.nodefinder k <;> simp [contains, hg]
  · intro s' hs'
    obtain ⟨_, D2, _, _, D5, _⟩ := hsucc s' hs'
    refine ⟨by simp [contains, D2], D5⟩

theorem C7_deleteItem_spec_witness :
    Inv (insertAll false [((0 : Nat), (1 : Int))]) ∧
    ((delitem (insertAll false [((0 : Nat), (1 : Int))]) 5 = none ↔
        contains (insertAll false [((0 : Nat), (1 : Int))]) 5 = false) ∧
      (∀ s', delitem (insertAll false [((0 : Nat), (1 : Int))]) 5 = some s' →
        contains s' 5 = false ∧
          size s' + 1 = size (insertAll false [((0 : Nat), (1 : Int))]))) :=
  ⟨by decide, C7_deleteItem_spec (by decide)⟩

/-- C8: `_sink(pos)` on a heap whose strict descendants of `pos` are
heap-ordered restores heap order on the whole subtree rooted at `pos` (the
bounded swim never rises above `pos`), keeps the position index consistent,
preserves every key's binding, and moves no entry in or out of the heap. -/
theorem C8_sink_spec {s : PQDict K P} {pos : Nat} (hl : pos < s.heap.length)
    (hso : StrictDescOrd s.maxpq s.heap pos) (hinv : Inv s) :
    SubHeapOrd s.maxpq (sink s pos).heap pos ∧
    Inv (sink s pos) ∧
    (∀ k, assocOf (sink s pos) k = assocOf s k) ∧
    (sink s pos).heap.length = s.heap.length ∧
    (sink s pos).maxpq = s.maxpq := by
  obtain ⟨A1, _, _⟩ := sink_subHeapOrd hl hso
  obtain ⟨B1, B2, B3, _, B5⟩ := sink_inv hl hinv
  exact ⟨A1, B1, B2, B3, B5⟩

theorem C8_sink_spec_witness :
    (0 < ((⟨false, [⟨0, (5 : Int)⟩, ⟨1, 1⟩, ⟨2, 2⟩],
        [((0 : Nat), 0), (1, 1), (2, 2)]⟩ : PQDict Nat Int)).heap.length ∧
      StrictDescOrd false [⟨0, (5 : Int)⟩, ⟨1, 1⟩, ⟨2, 2⟩] 0 ∧
      Inv (⟨false, [⟨0, (5 : Int)⟩, ⟨1, 1⟩, ⟨2, 2⟩],
        [((0 : Nat), 0), (1, 1), (2, 2)]⟩ : PQDict Nat Int)) ∧
    (SubHeapOrd false
        (sink (⟨false, [⟨0, (5 : Int)⟩, ⟨1, 1⟩, ⟨2, 2⟩],
          [((0 : Nat), 0), (1, 1), (2, 2)]⟩ : PQDict Nat Int) 0).heap 0 ∧
      Inv (sink (⟨false, [⟨0, (5 : Int)⟩, ⟨1, 1⟩, ⟨2, 2⟩],
          [((0 : Nat), 0), (1, 1), (2, 2)]⟩ : PQDict Nat Int) 0) ∧
      (∀ k, assocOf (sink (⟨false, [⟨0, (5 : Int)⟩, ⟨1, 1⟩, ⟨2, 2⟩],
            [((0 : Nat), 0), (1, 1), (2, 2)]⟩ : PQDict Nat Int) 0) k =
          assocOf (⟨false, [⟨0, (5 : Int)⟩, ⟨1, 1⟩, ⟨2, 2⟩],
            [((0 : Nat), 0), (1, 1), (2, 2)]⟩ : PQDict Nat Int) k) ∧
      (sink (⟨false, [⟨0, (5 : Int)⟩, ⟨1, 1⟩, ⟨2, 2⟩],
          [((0 : Nat), 0), (1, 1), (2, 2)]⟩ : PQDict Nat Int) 0).heap.length =
        ((⟨false, [⟨0, (5 : Int)⟩, ⟨1, 1⟩, ⟨2, 2⟩],
          [((0 : Nat), 0), (1, 1), (2, 2)]⟩ : PQDict Nat Int)).heap.length ∧
      (sink (⟨false, [⟨0, (5 : Int)⟩, ⟨1, 1⟩, ⟨2, 2⟩],
          [((0 : Nat), 0), (1, 1), (2, 2)]⟩ : PQDict Nat Int) 0).maxpq = false) :=
  ⟨⟨by decide, by decide, by decide⟩,
    C8_sink_spec (by decide) (by decide) (by decide)⟩

/-- C10: on a consistent state, `pop(key, default)` with a default returns the
default and the completely unchanged state when the key is absent; without a
default it fails on an absent key (the source raises before any mutation);
and on a present key it removes exactly that key and returns its priority. -/
theorem C10_pop_default_spec {s : PQDict K P} {k : K} (hinv : Inv s) :
    (dictGet s.nodefinder k = none →
      (∀ d, pop s k (some d) = .ok (d, s)) ∧ pop s k none = .error ()) ∧
    (∀ pos, dictGet s.nodefinder k = some pos →
      ∀ d, ∃ s', pop s k d = .ok ((hget s.heap pos).pkey, s') ∧
        getitem s k = some (hget s.heap pos).pkey ∧
        Inv s' ∧ contains s' k = false ∧ size s' + 1 = size s ∧
        (∀ k', k' ≠ k → assocOf s' k' = assocOf s k')) := by
  constructor
  · intro habs
    constructor
    · intro d
      simp [pop, habs]
    · simp [pop, habs]
  · intro pos hpos
    intro d
    obtain ⟨hiff, hsucc⟩ := delitem_inv hinv
    cases hd : delitem s k with
    | none =>
        rw [hiff, hpos] at hd
        exact Option.noConfusion hd
    | some s' =>
        obtain ⟨D1, D2, D3, _, D5, _⟩ := hsucc s' hd
        refine ⟨s', ?_, ?_, D1, by simp [contains, D2], D5, D3⟩
        · rw [pop_eq_delitem s k d, hd]
          simp only [getitem, hpos]
        · simp only [getitem, hpos]

theorem C10_pop_default_spec_witness :
    Inv (insertAll false [((0 : Nat), (1 : Int)), (1, 2)]) ∧
    ((dictGet (insertAll false [((0 : Nat), (1 : Int)), (1, 2)]).nodefinder 7 = none →
      (∀ d, pop (insertAll false [((0 : Nat), (1 : Int)), (1, 2)]) 7 (some d) =
          .ok (d, insertAll false [((0 : Nat), (1 : Int)), (1, 2)])) ∧
        pop (insertAll false [((0 : Nat), (1 : Int)), (1, 2)]) 7 none = .error ()) ∧
    (∀ pos, dictGet (insertAll false [((0 : Nat), (1 : Int)), (1, 2)]).nodefinder 7 =
        some pos →
      ∀ d, ∃ s', pop (insertAll false [((0 : Nat), (1 : Int)), (1, 2)]) 7 d =
          .ok ((hget (insertAll false [((0 : Nat), (1 : Int)), (1, 2)]).heap pos).pkey, s') ∧
        getitem (insertAll false [((0 : Nat), (1 : Int)), (1, 2)]) 7 =
          some (hget (insertAll false [((0 : Nat), (1 : Int)), (1, 2)]).heap pos).pkey ∧
        Inv s' ∧ contains s' 7 = false ∧
        size s' + 1 = size (insertAll false [((0 : Nat), (1 : Int)), (1, 2)]) ∧
        (∀ k', k' ≠ 7 → assocOf s' k' =
          assocOf (insertAll false [((0 : Nat), (1 : Int)), (1, 2)]) k'))) :=
  ⟨by decide, C10_pop_default_spec (by decide)⟩

end PQ
